import Mathlib

/- A shallow embedding of src/unused/defer.c from facil.io: the task queue
with its hybrid arena/heap node allocator (functions defer and
defer_perform), the thread-pool startup logic (defer_pool_start with its
inner helper defer_pool_initialize, modelled here as defer_pool_init), and
the per-process control flow of defer_perform_in_fork.

Modelling conventions:
- A pointer into the static array tasks_buffer[DEFER_QUEUE_BUFFER] is
  NodePtr.arena i (the address tasks_buffer + i); a node obtained from
  malloc is NodePtr.heap k, where k is a fresh allocation counter.  Node
  memory is a total map NodePtr -> TaskNode; static storage is
  zero-initialised, matching C semantics for objects with static duration.
- C function pointers are modelled as Nat, with 0 playing the role of NULL
  (the code only ever tests them against NULL and compares nothing else).
  The opaque void pointer argument is also a Nat.
- deferred.last has type task_node_s ** and is either the address of
  deferred.first itself (LastPtr.headSlot) or the address of the next field
  of some node (LastPtr.nextOf p).
- malloc can fail; each call to defer takes the oracle allocOk saying
  whether the malloc in that call (if reached) succeeds.  The fields
  heapNext and heapCount instrument the allocator: heapNext is the next
  fresh heap id, heapCount the number of live heap nodes (malloc adds one,
  free removes one).  Neither field feeds back into control flow.
- The spin lock is not represented: every modelled operation is one
  critical section plus lock-free work, and the sequential claims below
  interleave whole critical sections.
- Executing a task can re-enter defer.  A task environment
  env : Nat -> List (Nat x Nat) gives, for each function value, the list of
  (func, arg) submissions that function performs when invoked; the body of
  defer_perform is modelled with explicit fuel (the C loop can diverge when
  tasks keep resubmitting, so a total model needs a bound; the fuel value
  returned none means the bound was hit, some means the C loop returned).
-/

namespace FacilDefer

/-- Arena capacity: the C macro DEFER_QUEUE_BUFFER, which defaults to 1024. -/
def DEFER_QUEUE_BUFFER : Nat := 1024

/-- A node address: a slot of the static arena tasks_buffer, or a heap node. -/
inductive NodePtr
  | arena (i : Nat)
  | heap (k : Nat)
deriving DecidableEq

/-- Contents of one task_node_s: the task (func, arg) and the next link. -/
structure TaskNode where
  func : Nat
  arg : Nat
  next : Option NodePtr
deriving DecidableEq

/-- Node memory: total contents map over node addresses. -/
abbrev Mem := NodePtr → TaskNode

/-- Pointwise store: write v at address p. -/
def updMem (m : Mem) (p : NodePtr) (v : TaskNode) : Mem :=
  fun q => if q = p then v else m q

/-- The value of deferred.last: the address of deferred.first itself, or the
address of the next field of node p. -/
inductive LastPtr
  | headSlot
  | nextOf (p : NodePtr)
deriving DecidableEq

/-- The global state of defer.c: the static struct deferred plus node
memory and the allocator instrumentation counters. -/
structure DeferState where
  mem : Mem
  first : Option NodePtr
  last : LastPtr
  pool : Option NodePtr
  inited : Bool
  heapNext : Nat
  heapCount : Nat

/-- Static zero-initialised node storage. -/
def initMem : Mem := fun _ => { func := 0, arg := 0, next := none }

/-- The initialiser of the static struct deferred: first = NULL,
last = address of first, pool = NULL, initialized = 0. -/
def initState : DeferState :=
  { mem := initMem, first := none, last := .headSlot, pool := none,
    inited := false, heapNext := 0, heapCount := 0 }

/-- The one-time arena carve-up loop in defer:
for (i = 2; i < DEFER_QUEUE_BUFFER; i++) tasks_buffer[i-1].next = tasks_buffer + i.
The extra fuel argument makes the recursion structural; it is called with
fuel DEFER_QUEUE_BUFFER, which bounds the remaining iteration count. -/
def carveLoop (m : Mem) : Nat → Nat → Mem
  | _, 0 => m
  | i, fuel + 1 =>
    if i < DEFER_QUEUE_BUFFER then
      carveLoop (updMem m (.arena (i - 1)) { m (.arena (i - 1)) with next := some (.arena i) })
        (i + 1) fuel
    else m

/-- Result of defer: 0 on success; the two distinct -1 paths of the C code
are kept apart (call_error for a NULL func, the error label for a failed
malloc). -/
inductive DeferRes
  | ok
  | invalidArg
  | oom
deriving DecidableEq

/-- The int actually returned by the C function for each result path. -/
def DeferRes.toInt : DeferRes → Int
  | .ok => 0
  | .invalidArg => -1
  | .oom => -1

/-- Tail of defer once the node task has been acquired:
  *deferred.last = task; deferred.last = &task->next;
  task->task.func = func; task->task.arg = arg; task->next = NULL. -/
def finishDefer (func arg : Nat) (p : NodePtr) (s : DeferState) : DeferState :=
  let s1 :=
    match s.last with
    | .headSlot => { s with first := some p }
    | .nextOf q => { s with mem := updMem s.mem q { s.mem q with next := some p } }
  let s2 := { s1 with last := .nextOf p }
  { s2 with mem := updMem s2.mem p { func := func, arg := arg, next := none } }

/-- The function defer (lines 59-90): reject a NULL func, then under the
lock pop the free list, else malloc if the arena is already carved up, else
carve the arena; then append the node at the tail-insertion point. -/
def defer (func arg : Nat) (allocOk : Bool) (s : DeferState) : DeferRes × DeferState :=
  if func = 0 then (.invalidArg, s)
  else
    match s.pool with
    | some p => (.ok, finishDefer func arg p { s with pool := (s.mem p).next })
    | none =>
      if s.inited then
        if allocOk then
          (.ok, finishDefer func arg (.heap s.heapNext)
            { s with heapNext := s.heapNext + 1, heapCount := s.heapCount + 1 })
        else (.oom, s)
      else
        (.ok, finishDefer func arg (.arena 0)
          { s with inited := true, pool := some (.arena 1),
                   mem := carveLoop s.mem 2 DEFER_QUEUE_BUFFER })

/-- The arena membership test of defer_perform (line 104):
tmp <= tasks_buffer + (DEFER_QUEUE_BUFFER - 1) && tmp >= tasks_buffer. -/
def inArenaRange (p : NodePtr) : Bool :=
  match p with
  | .arena i => decide (i ≤ DEFER_QUEUE_BUFFER - 1)
  | .heap _ => false

/-- One iteration of the defer_perform loop body (lines 97-111): under the
lock pop the head node if any, fix up last when the queue became empty, copy
out the task, recycle the node (arena nodes go back on the free list, heap
nodes are freed), and return the task to be invoked outside the lock. -/
def performStep (s : DeferState) : Option ((Nat × Nat) × DeferState) :=
  match s.first with
  | none => none
  | some tmp =>
    let s1 := { s with first := (s.mem tmp).next }
    let s2 := if s1.first = none then { s1 with last := .headSlot } else s1
    let task := ((s2.mem tmp).func, (s2.mem tmp).arg)
    let s3 :=
      if inArenaRange tmp then
        { s2 with mem := updMem s2.mem tmp { s2.mem tmp with next := s2.pool },
                  pool := some tmp }
      else
        { s2 with heapCount := s2.heapCount - 1 }
    some (task, s3)

/-- Run the submissions a task performs when invoked: each entry is passed
to defer (heap allocation succeeding). -/
def runSubs (subs : List (Nat × Nat)) (s : DeferState) : DeferState :=
  subs.foldl (fun s fa => (defer fa.1 fa.2 true s).2) s

/-- The function defer_perform (lines 93-115), run under the task
environment env with explicit fuel.  It returns some (trace, final state)
when the C loop observes an empty queue and returns, with trace the list of
(func, arg) pairs invoked in order; none means the fuel bound was hit. -/
def defer_perform (env : Nat → List (Nat × Nat)) : Nat → DeferState → Option (List (Nat × Nat) × DeferState)
  | 0, _ => none
  | fuel + 1, s =>
    match performStep s with
    | none => some ([], s)
    | some (t, s1) =>
      match defer_perform env fuel (runSubs (env t.1) s1) with
      | none => none
      | some (tr, s2) => some (t :: tr, s2)

/-- The environment of tasks that perform no submissions of their own. -/
def noSubs : Nat → List (Nat × Nat) := fun _ => []

/-- One round of the arena-recycling scenario: submit one task, then drain.
A queue holding one pure task is always drained by defer_perform with fuel 2
(one pop plus the final empty check); the none fallback is never taken in
the scenario theorems. -/
def submitDrain (s : DeferState) (fa : Nat × Nat) : DeferState :=
  match defer_perform noSubs 2 (defer fa.1 fa.2 true s).2 with
  | some (_, s2) => s2
  | none => s

/-- Submit-and-drain the given tasks one at a time, starting from the
pristine state. -/
def submitDrainAll (ts : List (Nat × Nat)) : DeferState :=
  ts.foldl submitDrain initState

/- ***** Thread pool support (lines 164-213) ***** -/

/-- The struct defer_pool: active flag, running thread count, and the
flexible array of opaque thread handles; the handle returned by the k-th
successful defer_new_thread call is modelled by its index k. -/
structure Pool where
  flag : Nat
  count : Nat
  threads : List Nat
deriving DecidableEq

/-- The spawn loop of defer_pool_initialize:
while (count < thread_count && (threads[count] = defer_new_thread(...))) count++.
spawnOk k says whether the spawn for index k returns a handle (NULL means
failure).  The structural argument rem is the remaining distance to
thread_count, so the loop condition count < thread_count is rem > 0. -/
def poolInitLoop (spawnOk : Nat → Bool) : Nat → Pool → Pool
  | 0, p => p
  | rem + 1, p =>
    if spawnOk p.count then
      poolInitLoop spawnOk rem { p with threads := p.threads ++ [p.count], count := p.count + 1 }
    else p

/-- Result of defer_pool_init: the pool object as left in memory, whether
the C function returned its address (vs NULL), and the value written to the
global SPN_LOCK_THROTTLE on full success. -/
structure PoolStart where
  pool : Pool
  returned : Bool
  throttle : Option Nat
deriving DecidableEq

/-- The C function defer_pool_initialize (lines 190-204), renamed here:
set flag, spawn up to thread_count threads, and if the count was not
reached, stop the pool (clear the flag) and return NULL. -/
def defer_pool_init (spawnOk : Nat → Bool) (thread_count : Nat) : PoolStart :=
  let p := poolInitLoop spawnOk thread_count { flag := 1, count := 0, threads := [] }
  if p.count = thread_count then
    { pool := p, returned := true, throttle := some (8388608 * thread_count) }
  else
    { pool := { p with flag := 0 }, returned := false, throttle := none }

/-- The function defer_pool_start (lines 206-213): NULL for a zero thread
count, NULL if the pool allocation fails (oracle allocOk), else the result
of the initialisation; none models a NULL return with no pool object ever
allocated. -/
def defer_pool_start (spawnOk : Nat → Bool) (allocOk : Bool) (thread_count : Nat) :
    Option PoolStart :=
  if thread_count = 0 then none
  else if allocOk = false then none
  else some (defer_pool_init spawnOk thread_count)

/-- The function defer_pool_wait (lines 183-188) on a non-NULL pool: join
every thread, decrementing count to zero.  The threads array is not cleared
(the C code leaves the freed handles in place). -/
def defer_pool_wait (p : Pool) : Pool := { p with count := 0 }

/- ***** Child process support: defer_perform_in_fork (lines 261-319) *****

The fork model describes the execution of one process (the caller, or one
forked child, depending on what the fork oracle reports for that process).
OS effects are recorded in an event trace; the in-process task queue is the
separate model above, and the defer_perform calls of this function are
recorded as events.  calloc of a zero-length pids array is modelled as
returning NULL (the C standard allows it, and the returned pointer may not
be dereferenced either way). -/

/-- What a fork call returns in the process being modelled: 0 (this is the
child), -1 (failure), or the pid of the new child. -/
inductive ForkR
  | child
  | fail
  | pid (n : Nat)

/-- Oracles for every OS interaction defer_perform_in_fork performs. -/
structure ForkEnv where
  sigintOk : Bool
  sigtermOk : Bool
  sigchldOk : Bool
  callocOk : Bool
  poolAllocOk : Bool
  spawnOk : Nat → Bool
  forkRes : Nat → ForkR

/-- Events recorded by the fork model, in program order.  A kill or waitpid
whose target is none models the out-of-bounds pids read that the final
pids_count++ makes possible. -/
inductive FEvent
  | installedINT
  | installedTERM
  | installedCHLD
  | forkedChild (k : Nat)
  | forkedParent (k : Nat) (pid : Nat)
  | forkFailed (k : Nat)
  | setPool (isSome : Bool)
  | waitedPool
  | clearedPool
  | performed
  | killedChild (target : Option Int)
  | reapedChild (target : Option Int)
  | freedPids
  | restoredINT
  | restoredTERM
deriving DecidableEq

/-- Process state visible to this model: the static global forked_pool and
the trace of recorded events. -/
structure FState where
  forkedPool : Option Pool
  events : List FEvent
deriving DecidableEq

/-- Pristine process state: the static forked_pool is NULL. -/
def initF : FState := { forkedPool := none, events := [] }

/-- Append one event. -/
def addEv (s : FState) (e : FEvent) : FState := { s with events := s.events ++ [e] }

/-- Outcome of the modelled process execution: a return from the function,
a process exit (the exit(1) in reap_children), or a crash from undefined
behaviour (dereferencing a NULL pool in defer_pool_wait). -/
inductive FOutcome
  | ret (r : Int) (s : FState)
  | exited (code : Nat) (s : FState)
  | crash (s : FState)
deriving DecidableEq

/-- Return code of an outcome, when the function returned. -/
def FOutcome.code : FOutcome → Option Int
  | .ret r _ => some r
  | _ => none

/-- Final process state of an outcome. -/
def FOutcome.state : FOutcome → FState
  | .ret _ s => s
  | .exited _ s => s
  | .crash s => s

/-- Whether the outcome is the undefined-behaviour crash. -/
def FOutcome.isCrash : FOutcome → Bool
  | .crash _ => true
  | _ => false

/-- The pointer the C code hands to defer_pool_wait and stores in
forked_pool: the pool address on success, NULL when defer_pool_start
returned NULL. -/
def poolStartPtr : Option PoolStart → Option Pool
  | none => none
  | some r => if r.returned then some r.pool else none

/-- The finish label (lines 306-318): if pids is non-NULL, send SIGINT to
pids[0..pids_count-1], waitpid each, free the array; then restore both
signal handlers (their results are not checked) and return ret. -/
def finishF (s : FState) (ret : Int) (pids : Option (List Int)) (pids_count : Nat) : FOutcome :=
  match pids with
  | none => .ret ret { s with events := s.events ++ [.restoredINT, .restoredTERM] }
  | some l =>
    let kills := (List.range pids_count).map fun j => FEvent.killedChild (l.get? j)
    let waits := (List.range pids_count).map fun j => FEvent.reapedChild (l.get? j)
    .ret ret { s with events := s.events ++ kills ++ waits ++ [.freedPids, .restoredINT, .restoredTERM] }

/-- The child branch (lines 289-295): start a pool, store it in
forked_pool, wait on it (a NULL pool crashes on pool->count), run
defer_perform twice, and return 1.  forked_pool is not cleared. -/
def childPath (env : ForkEnv) (thread_count : Nat) (s : FState) : FOutcome :=
  let fp := poolStartPtr (defer_pool_start env.spawnOk env.poolAllocOk thread_count)
  let s := { addEv s (.setPool fp.isSome) with forkedPool := fp }
  match fp with
  | none => .crash s
  | some p =>
    let p2 := defer_pool_wait p
    let s := { addEv s .waitedPool with forkedPool := some p2 }
    let s := addEv (addEv s .performed) .performed
    .ret 1 s

/-- The fork loop (lines 288-300) for the process that keeps being the
parent, run with rem = process_count - k remaining iterations: fork; on 0
take the child path, on -1 set ret = -1 and go to finish with pids_count =
k (the stored -1 is never read back), else record the pid and continue. -/
def forkLoop (env : ForkEnv) (thread_count : Nat) :
    Nat → Nat → FState → List Int → (FOutcome ⊕ (FState × List Int))
  | 0, _, s, pids => .inr (s, pids)
  | rem + 1, k, s, pids =>
    match env.forkRes k with
    | .child => .inl (childPath env thread_count (addEv s (.forkedChild k)))
    | .fail => .inl (finishF (addEv s (.forkFailed k)) (-1) (some (pids ++ [-1])) k)
    | .pid n => forkLoop env thread_count rem (k + 1) (addEv s (.forkedParent k n)) (pids ++ [(n : Int)])

/-- Lines 301-305 followed by finish, in the parent: pids_count++ (so the
finish loops run one index past the filled array), start the local pool,
store it in forked_pool, wait (NULL crashes), clear forked_pool, run
defer_perform once, and fall into finish with ret = 0. -/
def afterLoop (env : ForkEnv) (thread_count : Nat) (s : FState)
    (pids : Option (List Int)) (pc : Nat) : FOutcome :=
  let fp := poolStartPtr (defer_pool_start env.spawnOk env.poolAllocOk thread_count)
  let s := { addEv s (.setPool fp.isSome) with forkedPool := fp }
  match fp with
  | none => .crash s
  | some p =>
    let p2 := defer_pool_wait p
    let s := { addEv s .waitedPool with forkedPool := some p2 }
    let s := { addEv s .clearedPool with forkedPool := none }
    let s := addEv s .performed
    finishF s 0 pids (pc + 1)

/-- The function defer_perform_in_fork (lines 261-319).  Signal handler
installation failures go to finish with ret still 0 (SIGINT, SIGTERM) or
exit the process (the SIGCHLD reaper).  process_count is clamped to at
least 1 and decremented; a zero-length pids calloc is modelled as NULL. -/
def defer_perform_in_fork (env : ForkEnv) (process_count thread_count : Nat)
    (s0 : FState) : FOutcome :=
  if env.sigintOk = false then finishF s0 0 none 0
  else
    let s := addEv s0 .installedINT
    if env.sigtermOk = false then finishF s 0 none 0
    else
      let s := addEv s .installedTERM
      if env.sigchldOk = false then .exited 1 s
      else
        let s := addEv s .installedCHLD
        let pc := (if process_count = 0 then 1 else process_count) - 1
        if pc = 0 then afterLoop env thread_count s none pc
        else if env.callocOk = false then finishF s 0 none 0
        else
          match forkLoop env thread_count pc 0 s [] with
          | .inl out => out
          | .inr (s1, pids) => afterLoop env thread_count s1 (some pids) pc

/-- Whether the outcome is a process exit. -/
def FOutcome.isExited : FOutcome → Bool
  | .exited _ _ => true
  | _ => false

/-- An oracle environment in which every OS interaction succeeds and every
fork stays in the parent. -/
def envAllOk : ForkEnv :=
  { sigintOk := true, sigtermOk := true, sigchldOk := true, callocOk := true,
    poolAllocOk := true, spawnOk := fun _ => true, forkRes := fun _ => .pid 7 }

/-- The all-success environment, except that installing the SIGINT handler
fails. -/
def envNoINT : ForkEnv := { envAllOk with sigintOk := false }

/-- The all-success environment as observed by a forked child process: its
fork call returned 0. -/
def envChild : ForkEnv := { envAllOk with forkRes := fun _ => .child }

/- ***** Abstraction layer: the linked structures spelled out as lists ***** -/

/-- The queue read off node memory: Chain m h q says that following next
links from the pointer h visits exactly the nodes of q in order (each
paired with the task its node stores) and ends at NULL. -/
inductive Chain (m : Mem) : Option NodePtr → List (NodePtr × Nat × Nat) → Prop
  | nil : Chain m none []
  | cons {p : NodePtr} {f a : Nat} {l : List (NodePtr × Nat × Nat)} :
      (m p).func = f → (m p).arg = a → Chain m (m p).next l →
      Chain m (some p) ((p, f, a) :: l)

/-- The free list read off node memory: only the node identities matter. -/
inductive FChain (m : Mem) : Option NodePtr → List NodePtr → Prop
  | nil : FChain m none []
  | cons {p : NodePtr} {l : List NodePtr} :
      FChain m (m p).next l → FChain m (some p) (p :: l)

/-- Node addresses of an abstract queue. -/
def nodesOf (q : List (NodePtr × Nat × Nat)) : List NodePtr := q.map (·.1)

/-- Tasks of an abstract queue, in order. -/
def tasksOf (q : List (NodePtr × Nat × Nat)) : List (Nat × Nat) :=
  q.map fun x => (x.2.1, x.2.2)

/-- Where deferred.last must point for an abstract queue: at the head slot
when the queue is empty, else at the next field of the final node. -/
def lastPtrOf (q : List (NodePtr × Nat × Nat)) : LastPtr :=
  match q.getLast? with
  | none => .headSlot
  | some x => .nextOf x.1

/-- Whether an address is a heap node. -/
def isHeapPtr : NodePtr → Bool
  | .heap _ => true
  | .arena _ => false

/-- Number of heap nodes in an abstract queue. -/
def countHeap (q : List (NodePtr × Nat × Nat)) : Nat :=
  (q.filter fun x => isHeapPtr x.1).length

/-- Validity of an address in a given state: arena indices lie inside the
static buffer, heap ids are below the allocation counter. -/
def ptrOK (s : DeferState) : NodePtr → Prop
  | .arena i => i < DEFER_QUEUE_BUFFER
  | .heap k => k < s.heapNext

/-- The arena suffix tasks_buffer + j .. tasks_buffer + (capacity - 1). -/
def arenaSeg (j : Nat) : List NodePtr :=
  (List.range' j (DEFER_QUEUE_BUFFER - j)).map NodePtr.arena

/-- The representation invariant tying a state of the C code to an abstract
queue q and free list fr. -/
structure Inv (s : DeferState) (q : List (NodePtr × Nat × Nat)) (fr : List NodePtr) : Prop where
  hq : Chain s.mem s.first q
  hfr : FChain s.mem s.pool fr
  hlast : s.last = lastPtrOf q
  hnodup : (nodesOf q ++ fr).Nodup
  hqok : ∀ x ∈ q, ptrOK s x.1
  hfrArena : ∀ p ∈ fr, ∃ i, p = NodePtr.arena i ∧ i < DEFER_QUEUE_BUFFER
  hheap : countHeap q = s.heapCount
  hcarve : s.inited = true →
    ∀ i < DEFER_QUEUE_BUFFER, NodePtr.arena i ∈ nodesOf q ∨ NodePtr.arena i ∈ fr
  hfresh : s.inited = false →
    s.first = none ∧ s.pool = none ∧ s.heapNext = 0 ∧ ∀ p, s.mem p = initMem p

/- ***** Basic lemmas about the abstraction ***** -/

theorem nodesOf_nil : nodesOf [] = [] := rfl

theorem nodesOf_cons (x : NodePtr × Nat × Nat) (l : List (NodePtr × Nat × Nat)) :
    nodesOf (x :: l) = x.1 :: nodesOf l := rfl

theorem nodesOf_append (l1 l2 : List (NodePtr × Nat × Nat)) :
    nodesOf (l1 ++ l2) = nodesOf l1 ++ nodesOf l2 := List.map_append _ _ _

theorem tasksOf_nil : tasksOf [] = [] := rfl

theorem tasksOf_cons (x : NodePtr × Nat × Nat) (l : List (NodePtr × Nat × Nat)) :
    tasksOf (x :: l) = (x.2.1, x.2.2) :: tasksOf l := rfl

theorem tasksOf_append (l1 l2 : List (NodePtr × Nat × Nat)) :
    tasksOf (l1 ++ l2) = tasksOf l1 ++ tasksOf l2 := List.map_append _ _ _

theorem tasksOf_length (l : List (NodePtr × Nat × Nat)) :
    (tasksOf l).length = l.length := List.length_map _ _

theorem countHeap_nil : countHeap [] = 0 := rfl

theorem countHeap_cons (x : NodePtr × Nat × Nat) (l : List (NodePtr × Nat × Nat)) :
    countHeap (x :: l) = (if isHeapPtr x.1 then 1 else 0) + countHeap l := by
  simp only [countHeap, List.filter_cons]
  by_cases hx : isHeapPtr x.1 <;> simp [hx, Nat.add_comm]

theorem countHeap_append (l1 l2 : List (NodePtr × Nat × Nat)) :
    countHeap (l1 ++ l2) = countHeap l1 + countHeap l2 := by
  simp [countHeap, List.filter_append]

theorem mem_of_getLast_opt {α : Type _} {l : List α} {a : α} (h : l.getLast? = some a) :
    a ∈ l := by
  have := List.mem_getLast?_eq_getLast (l := l) (x := a) (by rw [h]; rfl)
  obtain ⟨hne, rfl⟩ := this
  exact List.getLast_mem hne

theorem chain_none_nil {m : Mem} {l : List (NodePtr × Nat × Nat)} (hc : Chain m none l) :
    l = [] := by
  cases hc; rfl

theorem chain_nil_ptr {m : Mem} {h : Option NodePtr} (hc : Chain m h []) : h = none := by
  cases hc; rfl

theorem chain_cons_inv {m : Mem} {h : Option NodePtr} {p : NodePtr} {f a : Nat}
    {l : List (NodePtr × Nat × Nat)} (hc : Chain m h ((p, f, a) :: l)) :
    h = some p ∧ (m p).func = f ∧ (m p).arg = a ∧ Chain m (m p).next l := by
  cases hc with
  | cons hf ha hr => exact ⟨rfl, hf, ha, hr⟩

theorem fchain_none_nil {m : Mem} {l : List NodePtr} (hc : FChain m none l) : l = [] := by
  cases hc; rfl

theorem fchain_nil_ptr {m : Mem} {h : Option NodePtr} (hc : FChain m h []) : h = none := by
  cases hc; rfl

theorem fchain_cons_inv {m : Mem} {h : Option NodePtr} {p : NodePtr} {l : List NodePtr}
    (hc : FChain m h (p :: l)) : h = some p ∧ FChain m (m p).next l := by
  cases hc with
  | cons hr => exact ⟨rfl, hr⟩

theorem chain_congr {m m2 : Mem} {h : Option NodePtr} {l : List (NodePtr × Nat × Nat)}
    (hc : Chain m h l) (hag : ∀ x ∈ nodesOf l, m2 x = m x) : Chain m2 h l := by
  induction hc with
  | nil => exact Chain.nil
  | @cons p f a l hf ha _ ih =>
    have hp : m2 p = m p := hag p (by simp [nodesOf])
    refine Chain.cons ?_ ?_ ?_
    · rw [hp, hf]
    · rw [hp, ha]
    · rw [hp]
      exact ih fun x hx => hag x (by simp [nodesOf] at hx ⊢; exact Or.inr hx)

theorem fchain_congr {m m2 : Mem} {h : Option NodePtr} {l : List NodePtr}
    (hc : FChain m h l) (hag : ∀ x ∈ l, m2 x = m x) : FChain m2 h l := by
  induction hc with
  | nil => exact FChain.nil
  | @cons p l _ ih =>
    have hp : m2 p = m p := hag p (by simp)
    refine FChain.cons ?_
    rw [hp]
    exact ih fun x hx => hag x (by simp [hx])

theorem chain_snoc {m m2 : Mem} {p : NodePtr} {f a : Nat} :
    ∀ {h : Option NodePtr} {l : List (NodePtr × Nat × Nat)} {xl : NodePtr × Nat × Nat},
      Chain m h l → l.getLast? = some xl → (nodesOf l).Nodup →
      (∀ x ∈ nodesOf l, x ≠ xl.1 → m2 x = m x) →
      m2 xl.1 = { m xl.1 with next := some p } →
      m2 p = { func := f, arg := a, next := none } →
      p ∉ nodesOf l →
      Chain m2 h (l ++ [(p, f, a)]) := by
  intro h l xl hc
  induction hc with
  | nil => intro hlast; simp at hlast
  | @cons p1 f1 a1 l1 hf ha hr ih =>
    intro hlast hnd hag hxl hp hpn
    cases l1 with
    | nil =>
      simp only [List.getLast?_singleton, Option.some.injEq] at hlast
      subst hlast
      have hxl2 : m2 p1 = { func := (m p1).func, arg := (m p1).arg, next := some p } := by
        simpa using hxl
      refine Chain.cons ?_ ?_ ?_
      · rw [hxl2]; exact hf
      · rw [hxl2]; exact ha
      · have hnext : (m2 p1).next = some p := by rw [hxl2]
        rw [hnext]
        refine Chain.cons ?_ ?_ ?_
        · rw [hp]
        · rw [hp]
        · have hpnone : (m2 p).next = none := by rw [hp]
          rw [hpnone]
          exact Chain.nil
    | cons y l2 =>
      have hlast2 : (y :: l2).getLast? = some xl := by
        rwa [List.getLast?_cons_cons] at hlast
      have hxmem : xl ∈ y :: l2 := mem_of_getLast_opt hlast2
      rw [nodesOf_cons] at hnd
      have hnd2 : (nodesOf (y :: l2)).Nodup := (List.nodup_cons.mp hnd).2
      have hp1notin : p1 ∉ nodesOf (y :: l2) := (List.nodup_cons.mp hnd).1
      have hxlmem : xl.1 ∈ nodesOf (y :: l2) := List.mem_map_of_mem _ hxmem
      have hp1ne : p1 ≠ xl.1 := fun hcontra => hp1notin (hcontra ▸ hxlmem)
      have hm2p1 : m2 p1 = m p1 :=
        hag p1 (by rw [nodesOf_cons]; exact List.mem_cons_self _ _) hp1ne
      refine Chain.cons ?_ ?_ ?_
      · rw [hm2p1]; exact hf
      · rw [hm2p1]; exact ha
      · rw [hm2p1]
        refine ih hlast2 hnd2 ?_ hxl hp ?_
        · intro x hx hxne
          exact hag x (by rw [nodesOf_cons]; exact List.mem_cons_of_mem _ hx) hxne
        · intro hcontra
          exact hpn (by rw [nodesOf_cons]; exact List.mem_cons_of_mem _ hcontra)

theorem updMem_self (m : Mem) (p : NodePtr) (v : TaskNode) : updMem m p v p = v := by
  simp [updMem]

theorem updMem_ne (m : Mem) (p : NodePtr) (v : TaskNode) {x : NodePtr} (hx : x ≠ p) :
    updMem m p v x = m x := by
  simp [updMem, hx]

theorem lastPtrOf_nil : lastPtrOf [] = LastPtr.headSlot := rfl

theorem lastPtrOf_concat (q : List (NodePtr × Nat × Nat)) (x : NodePtr × Nat × Nat) :
    lastPtrOf (q ++ [x]) = LastPtr.nextOf x.1 := by
  simp [lastPtrOf, List.getLast?_concat]

theorem inv_init : Inv initState [] [] := by
  refine ⟨Chain.nil, FChain.nil, rfl, ?_, ?_, ?_, rfl, ?_, ?_⟩
  · simp [nodesOf_nil]
  · intro x hx; cases hx
  · intro pp hpp; cases hpp
  · intro hcontra; simp [initState] at hcontra
  · intro _; exact ⟨rfl, rfl, rfl, fun pp => rfl⟩

/-- Effect of the append tail of defer on all state components. -/
theorem finishDefer_inv {s : DeferState} {q : List (NodePtr × Nat × Nat)} {p : NodePtr}
    (f a : Nat)
    (hc : Chain s.mem s.first q)
    (hl : s.last = lastPtrOf q)
    (hnd : (nodesOf q).Nodup)
    (hp : p ∉ nodesOf q) :
    Chain (finishDefer f a p s).mem (finishDefer f a p s).first (q ++ [(p, f, a)]) ∧
    (finishDefer f a p s).last = lastPtrOf (q ++ [(p, f, a)]) ∧
    (finishDefer f a p s).pool = s.pool ∧
    (finishDefer f a p s).inited = s.inited ∧
    (finishDefer f a p s).heapNext = s.heapNext ∧
    (finishDefer f a p s).heapCount = s.heapCount ∧
    (∀ x, x ≠ p → x ∉ nodesOf q → (finishDefer f a p s).mem x = s.mem x) := by
  cases hql : q.getLast? with
  | none =>
    have hqnil : q = [] := List.getLast?_eq_none_iff.mp hql
    subst hqnil
    have hl2 : s.last = LastPtr.headSlot := hl
    simp only [finishDefer, hl2]
    refine ⟨?_, ?_, trivial, trivial, trivial, trivial, ?_⟩
    · refine Chain.cons ?_ ?_ ?_
      · rw [updMem_self]
      · rw [updMem_self]
      · rw [updMem_self]
        exact Chain.nil
    · rfl
    · intro x hxp _
      exact updMem_ne _ _ _ hxp
  | some xl =>
    have hxmem : xl ∈ q := mem_of_getLast_opt hql
    have hxlnodes : xl.1 ∈ nodesOf q := List.mem_map_of_mem _ hxmem
    have hxlne : xl.1 ≠ p := fun hcontra => hp (hcontra ▸ hxlnodes)
    have hl2 : s.last = LastPtr.nextOf xl.1 := by rw [hl]; simp [lastPtrOf, hql]
    simp only [finishDefer, hl2]
    refine ⟨?_, ?_, trivial, trivial, trivial, trivial, ?_⟩
    · refine chain_snoc hc hql hnd ?_ ?_ ?_ hp
      · intro x hx hxne
        have hxp : x ≠ p := by intro hcontra; subst hcontra; exact hp hx
        rw [updMem_ne _ _ _ hxp, updMem_ne _ _ _ hxne]
      · rw [updMem_ne _ _ _ hxlne, updMem_self]
      · rw [updMem_self]
    · rw [lastPtrOf_concat]
    · intro x hxp hxq
      have hxxl : x ≠ xl.1 := by intro hcontra; subst hcontra; exact hxq hxlnodes
      rw [updMem_ne _ _ _ hxp, updMem_ne _ _ _ hxxl]

/-- Heap nodes are untouched by the arena carve-up loop. -/
theorem carveLoop_get_heap (k : Nat) :
    ∀ (fuel i : Nat) (m : Mem), carveLoop m i fuel (NodePtr.heap k) = m (NodePtr.heap k) := by
  intro fuel
  induction fuel with
  | zero => intro i m; rfl
  | succ fuel ih =>
    intro i m
    simp only [carveLoop]
    by_cases hilt : i < DEFER_QUEUE_BUFFER
    · rw [if_pos hilt, ih]
      exact updMem_ne _ _ _ (by simp)
    · rw [if_neg hilt]

/-- Pointwise value of the arena carve-up loop on arena slots: slots
i-1 .. capacity-2 get their next link threaded to the following slot,
everything else is untouched. -/
theorem carveLoop_get_arena (j : Nat) :
    ∀ (fuel i : Nat) (m : Mem), 2 ≤ i → DEFER_QUEUE_BUFFER ≤ i + fuel →
      carveLoop m i fuel (NodePtr.arena j) =
        if i - 1 ≤ j ∧ j < DEFER_QUEUE_BUFFER - 1 then
          { m (NodePtr.arena j) with next := some (NodePtr.arena (j + 1)) }
        else m (NodePtr.arena j) := by
  intro fuel
  induction fuel with
  | zero =>
    intro i m hi2 hbound
    simp only [carveLoop]
    have hj : ¬(i - 1 ≤ j ∧ j < DEFER_QUEUE_BUFFER - 1) := by
      simp only [DEFER_QUEUE_BUFFER] at hbound ⊢
      omega
    rw [if_neg hj]
  | succ fuel ih =>
    intro i m hi2 hbound
    simp only [carveLoop]
    by_cases hilt : i < DEFER_QUEUE_BUFFER
    · rw [if_pos hilt]
      rw [ih (i + 1)
        (updMem m (NodePtr.arena (i - 1)) { m (NodePtr.arena (i - 1)) with next := some (NodePtr.arena i) })
        (by omega) (by omega)]
      by_cases hcase : j = i - 1
      · subst hcase
        have h1 : ¬(i + 1 - 1 ≤ i - 1 ∧ i - 1 < DEFER_QUEUE_BUFFER - 1) := by omega
        have h2 : i - 1 ≤ i - 1 ∧ i - 1 < DEFER_QUEUE_BUFFER - 1 := by
          simp only [DEFER_QUEUE_BUFFER] at hilt ⊢
          omega
        rw [if_neg h1, if_pos h2, updMem_self]
        have hsucc : i - 1 + 1 = i := by omega
        rw [hsucc]
      · have hne : NodePtr.arena j ≠ NodePtr.arena (i - 1) := by
          simp [hcase]
        rw [updMem_ne _ _ _ hne]
        by_cases hin : i + 1 - 1 ≤ j ∧ j < DEFER_QUEUE_BUFFER - 1
        · have hin2 : i - 1 ≤ j ∧ j < DEFER_QUEUE_BUFFER - 1 := ⟨by omega, hin.2⟩
          rw [if_pos hin, if_pos hin2]
        · have hin2 : ¬(i - 1 ≤ j ∧ j < DEFER_QUEUE_BUFFER - 1) := by omega
          rw [if_neg hin, if_neg hin2]
    · rw [if_neg hilt]
      have hj : ¬(i - 1 ≤ j ∧ j < DEFER_QUEUE_BUFFER - 1) := by
        simp only [DEFER_QUEUE_BUFFER] at hilt ⊢
        omega
      rw [if_neg hj]

theorem arenaSeg_cons (j : Nat) (hj : j < DEFER_QUEUE_BUFFER) :
    arenaSeg j = NodePtr.arena j :: arenaSeg (j + 1) := by
  have h1 : DEFER_QUEUE_BUFFER - j = (DEFER_QUEUE_BUFFER - (j + 1)) + 1 := by omega
  simp [arenaSeg, h1, List.range'_succ]

theorem arenaSeg_top : arenaSeg DEFER_QUEUE_BUFFER = [] := by
  simp [arenaSeg]

theorem arenaSeg_length (j : Nat) : (arenaSeg j).length = DEFER_QUEUE_BUFFER - j := by
  simp [arenaSeg]

theorem mem_arenaSeg {x : NodePtr} {j : Nat} (hj : j ≤ DEFER_QUEUE_BUFFER) :
    x ∈ arenaSeg j ↔ ∃ i, j ≤ i ∧ i < DEFER_QUEUE_BUFFER ∧ x = NodePtr.arena i := by
  simp only [arenaSeg, List.mem_map, List.mem_range'_1]
  constructor
  · rintro ⟨i, ⟨hji, hlt⟩, rfl⟩
    exact ⟨i, hji, by omega, rfl⟩
  · rintro ⟨i, hji, hlt, rfl⟩
    exact ⟨i, ⟨hji, by omega⟩, rfl⟩

theorem arenaSeg_nodup (j : Nat) : (arenaSeg j).Nodup := by
  refine List.Nodup.map ?_ (List.nodup_range' _ _)
  intro a b hab
  simpa using hab

/-- Building the free list left by the carve-up: the chain from slot j runs
to the end of the arena. -/
theorem fchain_arenaSeg {m : Mem}
    (hmid : ∀ j, 1 ≤ j → j < DEFER_QUEUE_BUFFER - 1 →
      (m (NodePtr.arena j)).next = some (NodePtr.arena (j + 1)))
    (hend : (m (NodePtr.arena (DEFER_QUEUE_BUFFER - 1))).next = none) :
    ∀ (n j : Nat), 1 ≤ j → j < DEFER_QUEUE_BUFFER → j + n = DEFER_QUEUE_BUFFER →
      FChain m (some (NodePtr.arena j)) (arenaSeg j) := by
  intro n
  induction n with
  | zero =>
    intro j _ hjlt hsum
    omega
  | succ n ih =>
    intro j hj1 hjlt hsum
    rw [arenaSeg_cons j hjlt]
    refine FChain.cons ?_
    by_cases hj2 : j < DEFER_QUEUE_BUFFER - 1
    · rw [hmid j hj1 hj2]
      exact ih (j + 1) (by omega) (by omega) (by omega)
    · have hjeq : j = DEFER_QUEUE_BUFFER - 1 := by omega
      subst hjeq
      rw [hend]
      have hseg : arenaSeg (DEFER_QUEUE_BUFFER - 1 + 1) = [] := by
        have h2 : DEFER_QUEUE_BUFFER - 1 + 1 = DEFER_QUEUE_BUFFER := by
          simp [DEFER_QUEUE_BUFFER]
        rw [h2, arenaSeg_top]
      rw [hseg]
      exact FChain.nil

theorem ptrOK_congr {s s2 : DeferState} (hh : s2.heapNext = s.heapNext) {x : NodePtr}
    (hx : ptrOK s x) : ptrOK s2 x := by
  cases x with
  | arena i => exact hx
  | heap k => simpa [ptrOK, hh] using hx

theorem ptrOK_mono {s s2 : DeferState} (hh : s.heapNext ≤ s2.heapNext) {x : NodePtr}
    (hx : ptrOK s x) : ptrOK s2 x := by
  cases x with
  | arena i => exact hx
  | heap k =>
    simp only [ptrOK] at hx ⊢
    omega

/- ***** The three node-acquisition paths of defer, and its failure paths ***** -/

theorem defer_null_eq (f a : Nat) (ok : Bool) (s : DeferState) (hf : f = 0) :
    defer f a ok s = (DeferRes.invalidArg, s) := by
  simp [defer, hf]

theorem defer_oom_eq {s : DeferState} (f a : Nat) (hf : f ≠ 0) (hpool : s.pool = none)
    (hi : s.inited = true) :
    defer f a false s = (DeferRes.oom, s) := by
  simp [defer, hpool, hi, if_neg hf]

/-- Successful defer when the free list is non-empty: the head of the free
list is popped and appended to the queue. -/
theorem defer_pop {s : DeferState} {q : List (NodePtr × Nat × Nat)} {fr : List NodePtr}
    {p0 : NodePtr} {rest : List NodePtr}
    (h : Inv s q fr) (f a : Nat) (ok : Bool) (hf : f ≠ 0) (hfr : fr = p0 :: rest) :
    (defer f a ok s).1 = DeferRes.ok ∧
    Inv (defer f a ok s).2 (q ++ [(p0, f, a)]) rest ∧
    (defer f a ok s).2.heapNext = s.heapNext := by
  subst hfr
  obtain ⟨hpool, hfr2⟩ := fchain_cons_inv h.hfr
  have hndq : (nodesOf q).Nodup := (List.nodup_append.mp h.hnodup).1
  have hdisj : (nodesOf q).Disjoint (p0 :: rest) := (List.nodup_append.mp h.hnodup).2.2
  have hndfr : (p0 :: rest).Nodup := (List.nodup_append.mp h.hnodup).2.1
  have hp0q : p0 ∉ nodesOf q := fun hc => hdisj hc (List.mem_cons_self _ _)
  have hd : defer f a ok s =
      (DeferRes.ok, finishDefer f a p0 { s with pool := (s.mem p0).next }) := by
    simp only [defer, hpool, if_neg hf]
  obtain ⟨HC, HL, HP, HI, HN, HH, HAG⟩ :=
    finishDefer_inv (s := { s with pool := (s.mem p0).next }) (q := q) (p := p0) f a
      h.hq h.hlast hndq hp0q
  rw [hd]
  refine ⟨rfl, ?_, HN⟩
  refine ⟨HC, ?_, HL, ?_, ?_, ?_, ?_, ?_, ?_⟩
  · rw [HP]
    refine fchain_congr hfr2 ?_
    intro x hx
    have hxp0 : x ≠ p0 := fun hc => (List.nodup_cons.mp hndfr).1 (hc ▸ hx)
    have hxq : x ∉ nodesOf q := fun hc => hdisj hc (List.mem_cons_of_mem _ hx)
    exact HAG x hxp0 hxq
  · rw [nodesOf_append, List.append_assoc]
    exact h.hnodup
  · intro x hx
    rcases List.mem_append.mp hx with hx1 | hx2
    · exact ptrOK_congr HN (h.hqok x hx1)
    · have hx3 : x = (p0, f, a) := by simpa using hx2
      subst hx3
      obtain ⟨i, hpi, hilt⟩ := h.hfrArena p0 (List.mem_cons_self _ _)
      rw [hpi]
      simpa [ptrOK] using hilt
  · intro x hx
    exact h.hfrArena x (List.mem_cons_of_mem _ hx)
  · rw [countHeap_append, HH]
    obtain ⟨i, hpi, _⟩ := h.hfrArena p0 (List.mem_cons_self _ _)
    have hp0heap : isHeapPtr p0 = false := by rw [hpi]; rfl
    simp [countHeap_cons, countHeap_nil, hp0heap, h.hheap]
  · intro hin i hilt
    rw [HI] at hin
    rcases h.hcarve hin i hilt with hq1 | hq2
    · exact Or.inl (by rw [nodesOf_append]; exact List.mem_append_left _ hq1)
    · rcases List.mem_cons.mp hq2 with hq3 | hq4
      · refine Or.inl ?_
        rw [nodesOf_append]
        refine List.mem_append_right _ ?_
        simp [nodesOf, hq3]
      · exact Or.inr hq4
  · intro hin
    rw [HI] at hin
    have := (h.hfresh hin).2.1
    rw [hpool] at this
    cases this

/-- Successful defer when the free list is empty and the arena is already
carved up: a fresh heap node is allocated and appended to the queue. -/
theorem defer_malloc {s : DeferState} {q : List (NodePtr × Nat × Nat)}
    (h : Inv s q []) (f a : Nat) (hf : f ≠ 0) (hi : s.inited = true) :
    (defer f a true s).1 = DeferRes.ok ∧
    Inv (defer f a true s).2 (q ++ [(NodePtr.heap s.heapNext, f, a)]) [] ∧
    (defer f a true s).2.heapNext = s.heapNext + 1 := by
  have hpool : s.pool = none := fchain_nil_ptr h.hfr
  have hndq : (nodesOf q).Nodup := (List.nodup_append.mp h.hnodup).1
  have hpq : NodePtr.heap s.heapNext ∉ nodesOf q := by
    intro hc
    obtain ⟨e, he, heq⟩ := List.mem_map.mp hc
    have := h.hqok e he
    rw [heq] at this
    simp [ptrOK] at this
  have hd : defer f a true s =
      (DeferRes.ok, finishDefer f a (NodePtr.heap s.heapNext)
        { s with heapNext := s.heapNext + 1, heapCount := s.heapCount + 1 }) := by
    simp only [defer, hpool, hi, if_neg hf, if_true]
  obtain ⟨HC, HL, HP, HI, HN, HH, HAG⟩ :=
    finishDefer_inv (s := { s with heapNext := s.heapNext + 1, heapCount := s.heapCount + 1 })
      (q := q) (p := NodePtr.heap s.heapNext) f a h.hq h.hlast hndq hpq
  have HInv : Inv (finishDefer f a (NodePtr.heap s.heapNext)
      { s with heapNext := s.heapNext + 1, heapCount := s.heapCount + 1 })
      (q ++ [(NodePtr.heap s.heapNext, f, a)]) [] := by
    refine ⟨HC, ?_, HL, ?_, ?_, ?_, ?_, ?_, ?_⟩
    · rw [HP]
      show FChain _ s.pool []
      rw [hpool]
      exact FChain.nil
    · rw [List.append_nil, nodesOf_append]
      refine List.nodup_append.mpr ⟨hndq, List.nodup_singleton _, ?_⟩
      intro x hx1 hx2
      have hxeq : x = NodePtr.heap s.heapNext := List.mem_singleton.mp hx2
      subst hxeq
      exact hpq hx1
    · intro x hx
      rcases List.mem_append.mp hx with hx1 | hx2
      · refine ptrOK_mono ?_ (h.hqok x hx1)
        rw [HN]
        exact Nat.le_succ _
      · have hx3 : x = (NodePtr.heap s.heapNext, f, a) := List.mem_singleton.mp hx2
        subst hx3
        show s.heapNext < (finishDefer f a (NodePtr.heap s.heapNext)
          { s with heapNext := s.heapNext + 1, heapCount := s.heapCount + 1 }).heapNext
        rw [HN]
        exact Nat.lt_succ_self _
    · intro x hx
      cases hx
    · rw [countHeap_append, HH]
      have h1 : countHeap [(NodePtr.heap s.heapNext, f, a)] = 1 := rfl
      rw [h1, h.hheap]
    · intro hin i hilt
      rw [HI] at hin
      have hin2 : s.inited = true := hin
      rcases h.hcarve hin2 i hilt with hq1 | hq2
      · exact Or.inl (by rw [nodesOf_append]; exact List.mem_append_left _ hq1)
      · cases hq2
    · intro hin
      rw [HI] at hin
      have hin2 : s.inited = false := hin
      rw [hi] at hin2
      cases hin2
  rw [hd]
  exact ⟨rfl, HInv, HN⟩

/-- Successful defer on the very first submission: the arena is carved up,
slot 0 carries the task, slots 1 .. capacity-1 become the free list. -/
theorem defer_carve {s : DeferState} {q : List (NodePtr × Nat × Nat)} {fr : List NodePtr}
    (h : Inv s q fr) (f a : Nat) (ok : Bool) (hf : f ≠ 0) (hi : s.inited = false) :
    (defer f a ok s).1 = DeferRes.ok ∧
    Inv (defer f a ok s).2 [(NodePtr.arena 0, f, a)] (arenaSeg 1) ∧
    (defer f a ok s).2.heapNext = s.heapNext ∧ q = [] := by
  obtain ⟨hfirst, hpool, hhn, hmem⟩ := h.hfresh hi
  have hq0 : q = [] := chain_none_nil (hfirst ▸ h.hq)
  subst hq0
  have hd : defer f a ok s =
      (DeferRes.ok, finishDefer f a (NodePtr.arena 0)
        { s with inited := true, pool := some (NodePtr.arena 1),
                 mem := carveLoop s.mem 2 DEFER_QUEUE_BUFFER }) := by
    simp only [defer, hpool, hi, if_neg hf, Bool.false_eq_true, if_false]
  have hcm1 : ∀ j, 1 ≤ j → j < DEFER_QUEUE_BUFFER - 1 →
      carveLoop s.mem 2 DEFER_QUEUE_BUFFER (NodePtr.arena j) =
        { func := 0, arg := 0, next := some (NodePtr.arena (j + 1)) } := by
    intro j hj1 hj2
    rw [carveLoop_get_arena j DEFER_QUEUE_BUFFER 2 s.mem (by omega) (by omega)]
    have hcond : 2 - 1 ≤ j ∧ j < DEFER_QUEUE_BUFFER - 1 := ⟨by omega, hj2⟩
    rw [if_pos hcond, hmem]
    rfl
  have hcmend : carveLoop s.mem 2 DEFER_QUEUE_BUFFER (NodePtr.arena (DEFER_QUEUE_BUFFER - 1)) =
      { func := 0, arg := 0, next := none } := by
    rw [carveLoop_get_arena _ DEFER_QUEUE_BUFFER 2 s.mem (by omega) (by omega)]
    have hcond : ¬(2 - 1 ≤ DEFER_QUEUE_BUFFER - 1 ∧
        DEFER_QUEUE_BUFFER - 1 < DEFER_QUEUE_BUFFER - 1) := by omega
    rw [if_neg hcond, hmem]
    rfl
  obtain ⟨HC, HL, HP, HI, HN, HH, HAG⟩ :=
    finishDefer_inv
      (s := { s with
                inited := true,
                pool := some (NodePtr.arena 1),
                mem := carveLoop s.mem 2 DEFER_QUEUE_BUFFER })
      (q := []) (p := NodePtr.arena 0) f a
      (by show Chain _ s.first []
          rw [hfirst]
          exact Chain.nil)
      h.hlast (by simp [nodesOf_nil]) (by simp [nodesOf_nil])
  have HInv : Inv (finishDefer f a (NodePtr.arena 0)
      { s with inited := true, pool := some (NodePtr.arena 1),
               mem := carveLoop s.mem 2 DEFER_QUEUE_BUFFER })
      [(NodePtr.arena 0, f, a)] (arenaSeg 1) := by
    refine ⟨HC, ?_, HL, ?_, ?_, ?_, ?_, ?_, ?_⟩
    · rw [HP]
      show FChain _ (some (NodePtr.arena 1)) _
      have hmid : ∀ j, 1 ≤ j → j < DEFER_QUEUE_BUFFER - 1 →
          ((finishDefer f a (NodePtr.arena 0)
            { s with inited := true, pool := some (NodePtr.arena 1),
                     mem := carveLoop s.mem 2 DEFER_QUEUE_BUFFER }).mem
              (NodePtr.arena j)).next = some (NodePtr.arena (j + 1)) := by
        intro j hj1 hj2
        have hne : NodePtr.arena j ≠ NodePtr.arena 0 := by
          simp only [ne_eq, NodePtr.arena.injEq]
          omega
        rw [HAG (NodePtr.arena j) hne (by simp [nodesOf_nil])]
        show (carveLoop s.mem 2 DEFER_QUEUE_BUFFER (NodePtr.arena j)).next = _
        rw [hcm1 j hj1 hj2]
      have hend : ((finishDefer f a (NodePtr.arena 0)
          { s with inited := true, pool := some (NodePtr.arena 1),
                   mem := carveLoop s.mem 2 DEFER_QUEUE_BUFFER }).mem
            (NodePtr.arena (DEFER_QUEUE_BUFFER - 1))).next = none := by
        have hne : NodePtr.arena (DEFER_QUEUE_BUFFER - 1) ≠ NodePtr.arena 0 := by
          simp only [ne_eq, NodePtr.arena.injEq]
          decide
        rw [HAG (NodePtr.arena (DEFER_QUEUE_BUFFER - 1)) hne (by simp [nodesOf_nil])]
        show (carveLoop s.mem 2 DEFER_QUEUE_BUFFER (NodePtr.arena (DEFER_QUEUE_BUFFER - 1))).next = _
        rw [hcmend]
      exact fchain_arenaSeg hmid hend (DEFER_QUEUE_BUFFER - 1) 1 (by omega) (by decide) (by decide)
    · show (NodePtr.arena 0 :: arenaSeg 1).Nodup
      refine List.nodup_cons.mpr ⟨?_, arenaSeg_nodup 1⟩
      intro hc
      obtain ⟨i, h1i, _, heq⟩ := (mem_arenaSeg (by decide)).mp hc
      have h0i : (0 : Nat) = i := by injection heq
      omega
    · intro x hx
      have hx2 : x = (NodePtr.arena 0, f, a) := List.mem_singleton.mp hx
      subst hx2
      show (0 : Nat) < DEFER_QUEUE_BUFFER
      decide
    · intro x hx
      obtain ⟨i, _, hD, heq⟩ := (mem_arenaSeg (by decide)).mp hx
      exact ⟨i, heq, hD⟩
    · rw [HH]
      exact h.hheap
    · intro _ i hilt
      by_cases hi0 : i = 0
      · subst hi0
        exact Or.inl (List.mem_singleton.mpr rfl)
      · exact Or.inr ((mem_arenaSeg (by decide)).mpr ⟨i, by omega, hilt, rfl⟩)
    · intro hin
      rw [HI] at hin
      have hin2 : true = false := hin
      cases hin2
  rw [hd]
  exact ⟨rfl, HInv, HN, rfl⟩

/- ***** The pop-and-recycle step of defer_perform ***** -/

theorem lastPtrOf_cons_cons (x y : NodePtr × Nat × Nat) (l : List (NodePtr × Nat × Nat)) :
    lastPtrOf (x :: y :: l) = lastPtrOf (y :: l) := by
  simp [lastPtrOf, List.getLast?_cons_cons]

/-- Recycling an arena-resident head node: the node goes back on the free
list and the invariant carries over. -/
theorem recycle_arena {s t : DeferState} {i f a : Nat} {rest : List (NodePtr × Nat × Nat)}
    {fr : List NodePtr}
    (h : Inv s ((NodePtr.arena i, f, a) :: rest) fr)
    (hm : t.mem = s.mem) (hf1 : t.first = (s.mem (NodePtr.arena i)).next)
    (hl : t.last = lastPtrOf rest) (hp : t.pool = s.pool) (hin : t.inited = s.inited)
    (hhn : t.heapNext = s.heapNext) (hhc : t.heapCount = s.heapCount) :
    Inv { t with
            mem := updMem t.mem (NodePtr.arena i) { t.mem (NodePtr.arena i) with next := t.pool },
            pool := some (NodePtr.arena i) }
      rest (NodePtr.arena i :: fr) := by
  obtain ⟨hfirst, hfunc, harg, hrest⟩ := chain_cons_inv h.hq
  have hndfull : (NodePtr.arena i :: (nodesOf rest ++ fr)).Nodup := h.hnodup
  have hpncomb : NodePtr.arena i ∉ nodesOf rest ++ fr := (List.nodup_cons.mp hndfull).1
  have hpnrest : NodePtr.arena i ∉ nodesOf rest :=
    fun hc => hpncomb (List.mem_append_left _ hc)
  have hpnfr : NodePtr.arena i ∉ fr := fun hc => hpncomb (List.mem_append_right _ hc)
  have hiD : i < DEFER_QUEUE_BUFFER := h.hqok _ (List.mem_cons_self _ _)
  refine ⟨?_, ?_, ?_, ?_, ?_, ?_, ?_, ?_, ?_⟩
  · show Chain _ t.first rest
    rw [hf1]
    refine chain_congr hrest ?_
    intro x hx
    show updMem t.mem (NodePtr.arena i) _ x = s.mem x
    have hxne : x ≠ NodePtr.arena i := by
      intro hc
      subst hc
      exact hpnrest hx
    rw [updMem_ne _ _ _ hxne, hm]
  · show FChain _ (some (NodePtr.arena i)) (NodePtr.arena i :: fr)
    refine FChain.cons ?_
    show FChain _ ((updMem t.mem (NodePtr.arena i) _ (NodePtr.arena i)).next) fr
    rw [updMem_self]
    show FChain _ t.pool fr
    rw [hp]
    refine fchain_congr h.hfr ?_
    intro x hx
    show updMem t.mem (NodePtr.arena i) _ x = s.mem x
    have hxne : x ≠ NodePtr.arena i := by
      intro hc
      subst hc
      exact hpnfr hx
    rw [updMem_ne _ _ _ hxne, hm]
  · exact hl
  · exact List.perm_middle.nodup_iff.mpr hndfull
  · intro x hx
    refine ptrOK_mono ?_ (h.hqok x (List.mem_cons_of_mem _ hx))
    show s.heapNext ≤ t.heapNext
    rw [hhn]
  · intro x hx
    rcases List.mem_cons.mp hx with hx1 | hx2
    · exact ⟨i, hx1, hiD⟩
    · exact h.hfrArena x hx2
  · show countHeap rest = t.heapCount
    have hcount := h.hheap
    rw [countHeap_cons] at hcount
    have hih : isHeapPtr (NodePtr.arena i, f, a).1 = false := rfl
    rw [hih] at hcount
    simp at hcount
    rw [hhc]
    omega
  · intro hini j hjD
    have hini2 : s.inited = true := by rw [← hin]; exact hini
    rcases h.hcarve hini2 j hjD with hj1 | hj2
    · rcases List.mem_cons.mp hj1 with hj3 | hj4
      · exact Or.inr (List.mem_cons.mpr (Or.inl hj3))
      · exact Or.inl hj4
    · exact Or.inr (List.mem_cons.mpr (Or.inr hj2))
  · intro hini
    have hini2 : s.inited = false := by rw [← hin]; exact hini
    have := (h.hfresh hini2).1
    rw [hfirst] at this
    cases this

/-- Retiring a heap-resident head node: it is released to the allocator and
the invariant carries over. -/
theorem recycle_heap {s t : DeferState} {k f a : Nat} {rest : List (NodePtr × Nat × Nat)}
    {fr : List NodePtr}
    (h : Inv s ((NodePtr.heap k, f, a) :: rest) fr)
    (hm : t.mem = s.mem) (hf1 : t.first = (s.mem (NodePtr.heap k)).next)
    (hl : t.last = lastPtrOf rest) (hp : t.pool = s.pool) (hin : t.inited = s.inited)
    (hhn : t.heapNext = s.heapNext) (hhc : t.heapCount = s.heapCount) :
    Inv { t with heapCount := t.heapCount - 1 } rest fr := by
  obtain ⟨hfirst, hfunc, harg, hrest⟩ := chain_cons_inv h.hq
  have hndfull : (NodePtr.heap k :: (nodesOf rest ++ fr)).Nodup := h.hnodup
  refine ⟨?_, ?_, ?_, ?_, ?_, ?_, ?_, ?_, ?_⟩
  · show Chain t.mem t.first rest
    rw [hf1, hm]
    exact hrest
  · show FChain t.mem t.pool fr
    rw [hp, hm]
    exact h.hfr
  · exact hl
  · exact (List.nodup_cons.mp hndfull).2
  · intro x hx
    refine ptrOK_mono ?_ (h.hqok x (List.mem_cons_of_mem _ hx))
    show s.heapNext ≤ t.heapNext
    rw [hhn]
  · intro x hx
    exact h.hfrArena x hx
  · show countHeap rest = t.heapCount - 1
    have hcount := h.hheap
    rw [countHeap_cons] at hcount
    have hih : isHeapPtr (NodePtr.heap k, f, a).1 = true := rfl
    rw [hih] at hcount
    simp at hcount
    rw [hhc]
    omega
  · intro hini j hjD
    have hini2 : s.inited = true := by rw [← hin]; exact hini
    rcases h.hcarve hini2 j hjD with hj1 | hj2
    · rcases List.mem_cons.mp hj1 with hj3 | hj4
      · exact absurd hj3 (by simp)
      · exact Or.inl hj4
    · exact Or.inr hj2
  · intro hini
    have hini2 : s.inited = false := by rw [← hin]; exact hini
    have := (h.hfresh hini2).1
    rw [hfirst] at this
    cases this

theorem performStep_empty {s : DeferState} {fr : List NodePtr} (h : Inv s [] fr) :
    performStep s = none := by
  have hfirst : s.first = none := chain_nil_ptr h.hq
  simp [performStep, hfirst]

/-- One iteration of the defer_perform loop on a non-empty queue: the head
task is returned, the head node recycled, and the invariant carries over to
the tail; an arena head moves to the free list, a heap head is freed. -/
theorem performStep_pop {s : DeferState} {p : NodePtr} {f a : Nat}
    {rest : List (NodePtr × Nat × Nat)} {fr : List NodePtr}
    (h : Inv s ((p, f, a) :: rest) fr) :
    ∃ s2, performStep s = some ((f, a), s2) ∧
      Inv s2 rest (if isHeapPtr p then fr else p :: fr) ∧
      s2.heapNext = s.heapNext ∧ s2.inited = s.inited := by
  obtain ⟨hfirst, hfunc, harg, hrest⟩ := chain_cons_inv h.hq
  cases rest with
  | nil =>
    have hnext : (s.mem p).next = none := chain_nil_ptr hrest
    cases p with
    | arena i =>
      have hiD : i < DEFER_QUEUE_BUFFER := h.hqok _ (List.mem_cons_self _ _)
      have hinr : inArenaRange (NodePtr.arena i) = true := by
        simp only [inArenaRange, decide_eq_true_eq]
        omega
      have hstep : performStep s = some ((f, a),
          { s with first := none, last := LastPtr.headSlot,
                   mem := updMem s.mem (NodePtr.arena i)
                     { s.mem (NodePtr.arena i) with next := s.pool },
                   pool := some (NodePtr.arena i) }) := by
        simp [performStep, hfirst, hnext, hfunc, harg, hinr]
      refine ⟨_, hstep, ?_, rfl, rfl⟩
      exact recycle_arena (t := { s with first := none, last := LastPtr.headSlot })
        h rfl hnext.symm rfl rfl rfl rfl rfl
    | heap k =>
      have hstep : performStep s = some ((f, a),
          { s with first := none, last := LastPtr.headSlot,
                   heapCount := s.heapCount - 1 }) := by
        simp [performStep, hfirst, hnext, hfunc, harg, inArenaRange]
      refine ⟨_, hstep, ?_, rfl, rfl⟩
      exact recycle_heap (t := { s with first := none, last := LastPtr.headSlot })
        h rfl hnext.symm rfl rfl rfl rfl rfl
  | cons y rest2 =>
    have hrest2 := chain_cons_inv
      (show Chain s.mem ((s.mem p).next) ((y.1, y.2.1, y.2.2) :: rest2) from hrest)
    have hnext : (s.mem p).next = some y.1 := hrest2.1
    have hlast2 : s.last = lastPtrOf (y :: rest2) := by
      rw [h.hlast, lastPtrOf_cons_cons]
    cases p with
    | arena i =>
      have hiD : i < DEFER_QUEUE_BUFFER := h.hqok _ (List.mem_cons_self _ _)
      have hinr : inArenaRange (NodePtr.arena i) = true := by
        simp only [inArenaRange, decide_eq_true_eq]
        omega
      have hstep : performStep s = some ((f, a),
          { s with first := some y.1,
                   mem := updMem s.mem (NodePtr.arena i)
                     { s.mem (NodePtr.arena i) with next := s.pool },
                   pool := some (NodePtr.arena i) }) := by
        simp [performStep, hfirst, hnext, hfunc, harg, hinr]
      refine ⟨_, hstep, ?_, rfl, rfl⟩
      exact recycle_arena (t := { s with first := some y.1 })
        h rfl hnext.symm hlast2 rfl rfl rfl rfl
    | heap k =>
      have hstep : performStep s = some ((f, a),
          { s with first := some y.1, heapCount := s.heapCount - 1 }) := by
        simp [performStep, hfirst, hnext, hfunc, harg, inArenaRange]
      refine ⟨_, hstep, ?_, rfl, rfl⟩
      exact recycle_heap (t := { s with first := some y.1 })
        h rfl hnext.symm hlast2 rfl rfl rfl rfl

theorem runSubs_nil (s : DeferState) : runSubs [] s = s := rfl

theorem runSubs_cons (fa : Nat × Nat) (subs : List (Nat × Nat)) (s : DeferState) :
    runSubs (fa :: subs) s = runSubs subs ((defer fa.1 fa.2 true s).2) := rfl

/-- Submitting a batch of tasks (allocation succeeding) appends exactly the
entries with a non-NULL function to the queue, preserving the invariant. -/
theorem runSubs_inv (subs : List (Nat × Nat)) :
    ∀ {s : DeferState} {q : List (NodePtr × Nat × Nat)} {fr : List NodePtr}, Inv s q fr →
      ∃ pairs fr2, Inv (runSubs subs s) (q ++ pairs) fr2 ∧
        tasksOf pairs = subs.filter (fun x => decide (x.1 ≠ 0)) := by
  induction subs with
  | nil =>
    intro s q fr h
    exact ⟨[], fr, by simpa using h, rfl⟩
  | cons fa subs ih =>
    intro s q fr h
    by_cases hf : fa.1 = 0
    · have hstep : (defer fa.1 fa.2 true s).2 = s := by rw [defer_null_eq _ _ _ _ hf]
      obtain ⟨pairs, fr2, hinv, htasks⟩ := ih h
      refine ⟨pairs, fr2, ?_, ?_⟩
      · rw [runSubs_cons, hstep]
        exact hinv
      · rw [htasks]
        simp [List.filter_cons, hf]
    · cases hfrc : fr with
      | cons p0 rest =>
        rw [hfrc] at h
        obtain ⟨hok, hinv1, _⟩ := defer_pop h fa.1 fa.2 true hf rfl
        obtain ⟨pairs, fr2, hinv2, htasks⟩ := ih hinv1
        rw [List.append_assoc] at hinv2
        refine ⟨(p0, fa.1, fa.2) :: pairs, fr2, ?_, ?_⟩
        · rw [runSubs_cons]
          exact hinv2
        · rw [tasksOf_cons, htasks]
          simp [List.filter_cons, hf]
      | nil =>
        rw [hfrc] at h
        cases hinit : s.inited with
        | true =>
          obtain ⟨hok, hinv1, _⟩ := defer_malloc h fa.1 fa.2 hf hinit
          obtain ⟨pairs, fr2, hinv2, htasks⟩ := ih hinv1
          rw [List.append_assoc] at hinv2
          refine ⟨(NodePtr.heap s.heapNext, fa.1, fa.2) :: pairs, fr2, ?_, ?_⟩
          · rw [runSubs_cons]
            exact hinv2
          · rw [tasksOf_cons, htasks]
            simp [List.filter_cons, hf]
        | false =>
          obtain ⟨hok, hinv1, _, hq0⟩ := defer_carve h fa.1 fa.2 true hf hinit
          subst hq0
          obtain ⟨pairs, fr2, hinv2, htasks⟩ := ih hinv1
          refine ⟨(NodePtr.arena 0, fa.1, fa.2) :: pairs, fr2, ?_, ?_⟩
          · rw [runSubs_cons]
            exact hinv2
          · rw [tasksOf_cons, htasks]
            simp [List.filter_cons, hf]

theorem defer_perform_succ (env : Nat → List (Nat × Nat)) (fuel : Nat) (s : DeferState) :
    defer_perform env (fuel + 1) s =
      match performStep s with
      | none => some ([], s)
      | some (t, s1) =>
        match defer_perform env fuel (runSubs (env t.1) s1) with
        | none => none
        | some (tr, s2) => some (t :: tr, s2) := rfl

/-- Draining a queue of tasks that perform no submissions executes exactly
the queued tasks in order and empties the queue. -/
theorem drain_pure : ∀ (q : List (NodePtr × Nat × Nat)) {s : DeferState} {fr : List NodePtr},
    Inv s q fr →
    ∃ s2 fr2, defer_perform noSubs (q.length + 1) s = some (tasksOf q, s2) ∧
      s2.first = none ∧ Inv s2 [] fr2 := by
  intro q
  induction q with
  | nil =>
    intro s fr h
    refine ⟨s, fr, ?_, chain_nil_ptr h.hq, h⟩
    simp [defer_perform, performStep_empty h, tasksOf_nil]
  | cons x q ih =>
    intro s fr h
    obtain ⟨s2, hstep, hinv2, _, _⟩ :=
      performStep_pop (show Inv s ((x.1, x.2.1, x.2.2) :: q) fr from h)
    obtain ⟨s3, fr3, hrun, hfirst3, hinv3⟩ := ih hinv2
    refine ⟨s3, fr3, ?_, hfirst3, hinv3⟩
    show defer_perform noSubs (q.length + 1 + 1) s = _
    have e1 : defer_perform noSubs (q.length + 1 + 1) s =
        match defer_perform noSubs (q.length + 1) s2 with
        | none => none
        | some (tr, s4) => some ((x.2.1, x.2.2) :: tr, s4) := by
      simp only [defer_perform_succ, hstep, noSubs, runSubs, List.foldl_nil]
    rw [e1, hrun]
    simp [tasksOf_cons]

/- ***** The one-at-a-time submit-and-drain scenario ***** -/

/-- First round from the pristine state: after one submit and one drain the
free list holds the full arena. -/
theorem submitDrain_base (f a : Nat) (hf : f ≠ 0) :
    ∃ fr2, Inv (submitDrain initState (f, a)) [] fr2 ∧
      fr2.length = DEFER_QUEUE_BUFFER ∧ (submitDrain initState (f, a)).heapNext = 0 := by
  obtain ⟨hok, hinv1, hhn1, _⟩ := defer_carve inv_init f a true hf rfl
  obtain ⟨s2, hstep2, hinv2, hhn2, _⟩ := performStep_pop hinv1
  have hdp : defer_perform noSubs 2 (defer f a true initState).2 = some ([(f, a)], s2) := by
    simp only [defer_perform_succ, hstep2, performStep_empty hinv2, noSubs, runSubs,
      List.foldl_nil]
  have hsd : submitDrain initState (f, a) = s2 := by
    simp only [submitDrain, hdp]
  refine ⟨NodePtr.arena 0 :: arenaSeg 1, ?_, ?_, ?_⟩
  · rw [hsd]
    exact hinv2
  · rw [List.length_cons, arenaSeg_length]
    decide
  · rw [hsd, hhn2, hhn1]
    rfl

/-- Later rounds: one submit-and-drain keeps the free list at full arena
capacity and allocates nothing from the heap. -/
theorem submitDrain_preserve {s : DeferState} {fr : List NodePtr} (h : Inv s [] fr)
    (hlen : fr.length = DEFER_QUEUE_BUFFER) (hhn : s.heapNext = 0)
    (f a : Nat) (hf : f ≠ 0) :
    ∃ fr2, Inv (submitDrain s (f, a)) [] fr2 ∧
      fr2.length = DEFER_QUEUE_BUFFER ∧ (submitDrain s (f, a)).heapNext = 0 := by
  cases hfrc : fr with
  | nil =>
    rw [hfrc] at hlen
    simp [DEFER_QUEUE_BUFFER] at hlen
  | cons p0 rest =>
    rw [hfrc] at h hlen
    obtain ⟨i, hpi, hiD⟩ := h.hfrArena p0 (List.mem_cons_self _ _)
    subst hpi
    obtain ⟨hok, hinv1, hhn1⟩ := defer_pop h f a true hf rfl
    obtain ⟨s2, hstep2, hinv2, hhn2, _⟩ :=
      performStep_pop (show Inv (defer f a true s).2 ((NodePtr.arena i, f, a) :: []) rest
        from hinv1)
    have hdp : defer_perform noSubs 2 (defer f a true s).2 = some ([(f, a)], s2) := by
      simp only [defer_perform_succ, hstep2, performStep_empty hinv2, noSubs, runSubs,
        List.foldl_nil]
    have hsd : submitDrain s (f, a) = s2 := by
      simp only [submitDrain, hdp]
    refine ⟨NodePtr.arena i :: rest, ?_, ?_, ?_⟩
    · rw [hsd]
      exact hinv2
    · rw [List.length_cons] at hlen ⊢
      exact hlen
    · rw [hsd, hhn2, hhn1, hhn]

/-- Folding any number of further rounds preserves the full free list. -/
theorem submitDrain_fold (ts : List (Nat × Nat)) :
    ∀ {s : DeferState} {fr : List NodePtr}, (∀ x ∈ ts, x.1 ≠ 0) → Inv s [] fr →
      fr.length = DEFER_QUEUE_BUFFER → s.heapNext = 0 →
      ∃ fr2, Inv (ts.foldl submitDrain s) [] fr2 ∧
        fr2.length = DEFER_QUEUE_BUFFER ∧ (ts.foldl submitDrain s).heapNext = 0 := by
  induction ts with
  | nil =>
    intro s fr hts h hlen hhn
    exact ⟨fr, h, hlen, hhn⟩
  | cons t ts ih =>
    intro s fr hts h hlen hhn
    obtain ⟨fr2, h2, hlen2, hhn2⟩ :=
      submitDrain_preserve h hlen hhn t.1 t.2 (hts t (List.mem_cons_self _ _))
    exact ih (fun x hx => hts x (List.mem_cons_of_mem _ hx)) h2 hlen2 hhn2

/- ***** Thread pool lemmas ***** -/

/-- Full characterisation of the spawn loop: threads are spawned in index
order, each index below the final count succeeded, and the loop stops only
at the requested count or at the first failing spawn. -/
theorem poolInitLoop_spec (spawnOk : Nat → Bool) :
    ∀ (rem : Nat) (p : Pool), p.threads = List.range p.count →
      (poolInitLoop spawnOk rem p).flag = p.flag ∧
      (poolInitLoop spawnOk rem p).threads = List.range (poolInitLoop spawnOk rem p).count ∧
      p.count ≤ (poolInitLoop spawnOk rem p).count ∧
      (poolInitLoop spawnOk rem p).count ≤ p.count + rem ∧
      (∀ i, p.count ≤ i → i < (poolInitLoop spawnOk rem p).count → spawnOk i = true) ∧
      ((poolInitLoop spawnOk rem p).count < p.count + rem →
        spawnOk ((poolInitLoop spawnOk rem p).count) = false) := by
  intro rem
  induction rem with
  | zero =>
    intro p hth
    refine ⟨rfl, hth, Nat.le_refl _, ?_, ?_, ?_⟩
    · show p.count ≤ p.count + 0
      omega
    · intro i h1 h2
      have h3 : i < p.count := h2
      omega
    · intro hlt
      have h3 : p.count < p.count + 0 := hlt
      omega
  | succ rem ih =>
    intro p hth
    simp only [poolInitLoop]
    by_cases hsp : spawnOk p.count = true
    · rw [if_pos hsp]
      have hth2 : (p.threads ++ [p.count]) = List.range (p.count + 1) := by
        rw [hth, List.range_succ]
      obtain ⟨h1, h2, h3, h4, h5, h6⟩ :=
        ih { p with threads := p.threads ++ [p.count], count := p.count + 1 } hth2
      have hc : ({ p with threads := p.threads ++ [p.count], count := p.count + 1 } : Pool).count
          = p.count + 1 := rfl
      rw [hc] at h3 h4 h5 h6
      refine ⟨h1, h2, by omega, by omega, ?_, fun hlt => h6 (by omega)⟩
      intro i hi1 hi2
      by_cases hieq : i = p.count
      · rw [hieq]
        exact hsp
      · exact h5 i (by omega) hi2
    · rw [if_neg hsp]
      refine ⟨rfl, hth, Nat.le_refl _, by omega,
        fun i h1 h2 => absurd h2 (by omega), fun _ => ?_⟩
      simpa using hsp

/-- When every spawn succeeds and at least one thread is requested, pool
startup returns the full pool. -/
theorem pool_start_happy (spawnOk : Nat → Bool) (hsp : ∀ i, spawnOk i = true) (tc : Nat)
    (htc : 1 ≤ tc) :
    defer_pool_start spawnOk true tc = some (defer_pool_init spawnOk tc) ∧
    (defer_pool_init spawnOk tc).returned = true ∧
    (defer_pool_init spawnOk tc).pool.count = tc ∧
    (defer_pool_init spawnOk tc).pool.flag = 1 := by
  have htc0 : ¬(tc = 0) := by omega
  obtain ⟨h1, h2, h3, h4, h5, h6⟩ :=
    poolInitLoop_spec spawnOk tc { flag := 1, count := 0, threads := [] } rfl
  have hc0 : ({ flag := 1, count := 0, threads := [] } : Pool).count = 0 := rfl
  rw [hc0] at h3 h4 h5 h6
  have hcount : (poolInitLoop spawnOk tc { flag := 1, count := 0, threads := [] }).count = tc := by
    by_contra hne
    have hlt : (poolInitLoop spawnOk tc { flag := 1, count := 0, threads := [] }).count < 0 + tc := by
      omega
    have := h6 hlt
    rw [hsp _] at this
    cases this
  constructor
  · simp [defer_pool_start, htc0]
  · have hinit : defer_pool_init spawnOk tc =
        { pool := poolInitLoop spawnOk tc { flag := 1, count := 0, threads := [] },
          returned := true, throttle := some (8388608 * tc) } := by
      simp [defer_pool_init, hcount]
    rw [hinit]
    exact ⟨rfl, hcount, h1⟩

/- ***** Fork model lemmas ***** -/

theorem finishF_ret (s : FState) (r : Int) (pids : Option (List Int)) (pc : Nat) :
    ∃ tail, finishF s r pids pc = FOutcome.ret r { s with events := s.events ++ tail } := by
  cases pids with
  | none => exact ⟨[FEvent.restoredINT, FEvent.restoredTERM], rfl⟩
  | some l =>
    refine ⟨(List.range pc).map (fun j => FEvent.killedChild (l.get? j)) ++
      ((List.range pc).map (fun j => FEvent.reapedChild (l.get? j)) ++
        [FEvent.freedPids, FEvent.restoredINT, FEvent.restoredTERM]), ?_⟩
    simp [finishF, List.append_assoc]

/-- The fork loop in a process whose fork calls all return child pids. -/
theorem forkLoop_all_pids (env : ForkEnv) (tc : Nat)
    (hpid : ∀ k, ∃ n, env.forkRes k = ForkR.pid n) :
    ∀ (rem k : Nat) (s : FState) (pids : List Int), ∃ s2 pids2,
      forkLoop env tc rem k s pids = Sum.inr (s2, pids2) ∧
      s2.forkedPool = s.forkedPool ∧ ∃ evs, s2.events = s.events ++ evs := by
  intro rem
  induction rem with
  | zero =>
    intro k s pids
    exact ⟨s, pids, rfl, rfl, [], by simp⟩
  | succ rem ih =>
    intro k s pids
    obtain ⟨n, hn⟩ := hpid k
    obtain ⟨s2, pids2, heq, hfp, evs, hevs⟩ :=
      ih (k + 1) (addEv s (FEvent.forkedParent k n)) (pids ++ [(n : Int)])
    refine ⟨s2, pids2, ?_, ?_, ?_⟩
    · simp only [forkLoop, hn]
      exact heq
    · rw [hfp]
      rfl
    · refine ⟨FEvent.forkedParent k n :: evs, ?_⟩
      rw [hevs]
      simp [addEv]

/-- The pointer stored in forked_pool on a fully successful pool start. -/
theorem poolStartPtr_happy (env : ForkEnv) (tc : Nat) (hsp : ∀ i, env.spawnOk i = true)
    (hpa : env.poolAllocOk = true) (htc : 1 ≤ tc) :
    poolStartPtr (defer_pool_start env.spawnOk env.poolAllocOk tc)
      = some (defer_pool_init env.spawnOk tc).pool := by
  obtain ⟨hstart, hret, _, _⟩ := pool_start_happy env.spawnOk hsp tc htc
  rw [hpa, hstart]
  simp [poolStartPtr, hret]

/-- The child branch under an all-success environment: it returns 1 with
forked_pool still pointing at its (waited) pool, never cleared. -/
theorem childPath_happy (env : ForkEnv) (tc : Nat) (hsp : ∀ i, env.spawnOk i = true)
    (hpa : env.poolAllocOk = true) (htc : 1 ≤ tc) (s : FState) :
    childPath env tc s = FOutcome.ret 1
      { forkedPool := some (defer_pool_wait (defer_pool_init env.spawnOk tc).pool),
        events := s.events ++
          [FEvent.setPool true, FEvent.waitedPool, FEvent.performed, FEvent.performed] } := by
  have hfp := poolStartPtr_happy env tc hsp hpa htc
  simp [childPath, hfp, addEv, List.append_assoc]

/-- The parent tail under an all-success environment: pool started, waited,
forked_pool cleared, one perform, then the finish path returning 0. -/
theorem afterLoop_happy (env : ForkEnv) (tc : Nat) (hsp : ∀ i, env.spawnOk i = true)
    (hpa : env.poolAllocOk = true) (htc : 1 ≤ tc) (s : FState)
    (pids : Option (List Int)) (pc : Nat) :
    ∃ r, afterLoop env tc s pids pc = FOutcome.ret 0 r ∧ r.forkedPool = none ∧
      ∃ l2, r.events = s.events ++
        ([FEvent.setPool true, FEvent.waitedPool, FEvent.clearedPool, FEvent.performed] ++ l2) := by
  have hfp := poolStartPtr_happy env tc hsp hpa htc
  have hal : afterLoop env tc s pids pc = finishF
      { forkedPool := none,
        events := s.events ++
          [FEvent.setPool true, FEvent.waitedPool, FEvent.clearedPool, FEvent.performed] }
      0 pids (pc + 1) := by
    simp [afterLoop, hfp, addEv, List.append_assoc]
  obtain ⟨tail, htail⟩ := finishF_ret
    { forkedPool := none,
      events := s.events ++
        [FEvent.setPool true, FEvent.waitedPool, FEvent.clearedPool, FEvent.performed] }
    0 pids (pc + 1)
  rw [hal, htail]
  exact ⟨_, rfl, rfl, tail, by simp [List.append_assoc]⟩

/- ***** Claim theorems ***** -/

/-- C1: for every sequence of tasks T1..Tn submitted successfully from a
single thread with no interleaved drain (modelled by runSubs with non-NULL
functions and succeeding allocation, on top of any state satisfying the
representation invariant), a subsequent defer_perform executes the
previously queued tasks followed by T1..Tn, in submission order, each
exactly once, and leaves the queue empty. -/
theorem C1_fifo_single_producer {s : DeferState} {q : List (NodePtr × Nat × Nat)}
    {fr : List NodePtr} (ts : List (Nat × Nat)) (h : Inv s q fr)
    (hts : ∀ x ∈ ts, x.1 ≠ 0) :
    ∃ s2, defer_perform noSubs (q.length + ts.length + 1) (runSubs ts s) =
        some (tasksOf q ++ ts, s2) ∧ s2.first = none := by
  obtain ⟨pairs, fr2, hinv2, htasks⟩ := runSubs_inv ts h
  have hfilter : ts.filter (fun x => decide (x.1 ≠ 0)) = ts :=
    List.filter_eq_self.mpr (fun x hx => by simpa using hts x hx)
  rw [hfilter] at htasks
  have hlen : pairs.length = ts.length := by
    rw [← htasks, tasksOf_length]
  obtain ⟨s2, fr3, hrun, hfirst, _⟩ := drain_pure (q ++ pairs) hinv2
  rw [List.length_append, hlen, tasksOf_append, htasks] at hrun
  exact ⟨s2, hrun, hfirst⟩

set_option maxRecDepth 8000 in
/-- Witness for C1: three tasks submitted to the pristine state are
executed in submission order by the following drain. -/
theorem C1_fifo_witness :
    (∀ x ∈ [((1 : Nat), (10 : Nat)), (2, 20), (3, 30)], x.1 ≠ 0) ∧
    ∃ s2, defer_perform noSubs 4 (runSubs [(1, 10), (2, 20), (3, 30)] initState) =
        some ([(1, 10), (2, 20), (3, 30)], s2) ∧ s2.first = none :=
  ⟨by decide, C1_fifo_single_producer [(1, 10), (2, 20), (3, 30)] inv_init (by decide)⟩

/-- C2: whenever defer_perform returns, the queue was observed empty at
that final check, and every task submitted (with a non-NULL function) by a
task that executed inside the same call is itself executed before the call
returns. -/
theorem C2_drain_observes_empty_and_reentrant (env : Nat → List (Nat × Nat)) :
    ∀ (fuel : Nat) {s s2 : DeferState} {q : List (NodePtr × Nat × Nat)}
      {fr : List NodePtr} {tr : List (Nat × Nat)},
      Inv s q fr → defer_perform env fuel s = some (tr, s2) →
      s2.first = none ∧ (∀ x ∈ tasksOf q, x ∈ tr) ∧
      (∀ x ∈ tr, ∀ y ∈ env x.1, y.1 ≠ 0 → y ∈ tr) := by
  intro fuel
  induction fuel with
  | zero =>
    intro s s2 q fr tr h hrun
    simp [defer_perform] at hrun
  | succ fuel ih =>
    intro s s2 q fr tr h hrun
    cases q with
    | nil =>
      have hps : performStep s = none := performStep_empty h
      have e0 : defer_perform env (fuel + 1) s = some ([], s) := by
        simp only [defer_perform_succ, hps]
      rw [e0] at hrun
      simp only [Option.some.injEq, Prod.mk.injEq] at hrun
      obtain ⟨htr, hs2⟩ := hrun
      subst htr
      subst hs2
      refine ⟨chain_nil_ptr h.hq, ?_, ?_⟩
      · intro x hx
        cases hx
      · intro x hx
        cases hx
    | cons x q2 =>
      obtain ⟨s1, hstep, hinv1, _, _⟩ :=
        performStep_pop (show Inv s ((x.1, x.2.1, x.2.2) :: q2) fr from h)
      obtain ⟨pairs, fr2, hinv2, hptasks⟩ := runSubs_inv (env x.2.1) hinv1
      have e1 : defer_perform env (fuel + 1) s =
          match defer_perform env fuel (runSubs (env x.2.1) s1) with
          | none => none
          | some (tr2, s4) => some ((x.2.1, x.2.2) :: tr2, s4) := by
        simp only [defer_perform_succ, hstep]
      rw [e1] at hrun
      cases hinner : defer_perform env fuel (runSubs (env x.2.1) s1) with
      | none =>
        rw [hinner] at hrun
        simp at hrun
      | some val =>
        obtain ⟨tr2, s4⟩ := val
        rw [hinner] at hrun
        simp only [Option.some.injEq, Prod.mk.injEq] at hrun
        obtain ⟨htr, hs2⟩ := hrun
        subst hs2
        obtain ⟨hfirst4, hmem, hclosed⟩ := ih hinv2 hinner
        subst htr
        refine ⟨hfirst4, ?_, ?_⟩
        · intro z hz
          rw [tasksOf_cons] at hz
          rcases List.mem_cons.mp hz with hz1 | hz2
          · rw [hz1]
            exact List.mem_cons_self _ _
          · refine List.mem_cons_of_mem _ ?_
            refine hmem z ?_
            rw [tasksOf_append]
            exact List.mem_append_left _ hz2
        · intro z hz y hy hy1
          rcases List.mem_cons.mp hz with hz1 | hz2
          · have hyp : y ∈ tasksOf pairs := by
              rw [hptasks]
              refine List.mem_filter.mpr ⟨?_, by simpa using hy1⟩
              rw [hz1] at hy
              exact hy
            refine List.mem_cons_of_mem _ ?_
            refine hmem y ?_
            rw [tasksOf_append]
            exact List.mem_append_right _ hyp
          · exact List.mem_cons_of_mem _ (hclosed z hz2 y hy hy1)

/-- Witness for C2: a task that resubmits another task during a drain; the
resubmitted task is executed before the drain returns. -/
theorem C2_drain_reentrant_witness :
    ∃ tr s2, defer_perform (fun f => if f = 1 then [(2, 0)] else []) 3
        ((defer 1 0 true initState).2) = some (tr, s2) ∧
      s2.first = none ∧ ((2 : Nat), (0 : Nat)) ∈ tr := by
  obtain ⟨hok, hinv1, _, _⟩ := defer_carve inv_init 1 0 true (by decide) rfl
  obtain ⟨s2, hstep2, hinv2, _, _⟩ := performStep_pop hinv1
  have hinv2b : Inv s2 [] (NodePtr.arena 0 :: arenaSeg 1) := hinv2
  obtain ⟨hok3, hinv3, _⟩ := defer_pop hinv2b 2 0 true (by decide) rfl
  obtain ⟨s4, hstep4, hinv4, _, _⟩ := performStep_pop
    (show Inv (defer 2 0 true s2).2 ((NodePtr.arena 0, 2, 0) :: []) (arenaSeg 1) from hinv3)
  have hinv4b : Inv s4 [] (NodePtr.arena 0 :: arenaSeg 1) := hinv4
  have e1 : defer_perform (fun f => if f = 1 then [(2, 0)] else []) 3
      (defer 1 0 true initState).2 =
      match defer_perform (fun f => if f = 1 then [(2, 0)] else []) 2
          ((defer 2 0 true s2).2) with
      | none => none
      | some (tr2, s5) => some (((1 : Nat), (0 : Nat)) :: tr2, s5) := by
    simp only [defer_perform_succ, hstep2]
    rfl
  have e2 : defer_perform (fun f => if f = 1 then [(2, 0)] else []) 2
      ((defer 2 0 true s2).2) =
      match defer_perform (fun f => if f = 1 then [(2, 0)] else []) 1 s4 with
      | none => none
      | some (tr2, s5) => some (((2 : Nat), (0 : Nat)) :: tr2, s5) := by
    simp only [defer_perform_succ, hstep4]
    rfl
  have e3 : defer_perform (fun f => if f = 1 then [(2, 0)] else []) 1 s4 = some ([], s4) := by
    simp only [defer_perform_succ, performStep_empty hinv4b]
  have hdp : defer_perform (fun f => if f = 1 then [(2, 0)] else []) 3
      (defer 1 0 true initState).2 = some ([(1, 0), (2, 0)], s4) := by
    rw [e1, e2, e3]
  have h := C2_drain_observes_empty_and_reentrant
    (fun f => if f = 1 then [(2, 0)] else []) 3 hinv1 hdp
  refine ⟨[(1, 0), (2, 0)], s4, hdp, h.1, ?_⟩
  have h1 : ((1 : Nat), (0 : Nat)) ∈ tasksOf [(NodePtr.arena 0, 1, 0)] := by decide
  exact h.2.2 (1, 0) (h.2.1 (1, 0) h1) (2, 0) (by decide) (by decide)

/-- C3: the error contract of defer on any state satisfying the
representation invariant: InvalidArgument exactly for a NULL function, out
of memory exactly when the free list is empty, the arena is already carved
up and malloc fails; failures leave the state unchanged; success appends
exactly one node carrying (f, a) at the tail. -/
theorem C3_submit_contract {s : DeferState} {q : List (NodePtr × Nat × Nat)}
    {fr : List NodePtr} (f a : Nat) (allocOk : Bool) (h : Inv s q fr) :
    ((defer f a allocOk s).1 = DeferRes.invalidArg ↔ f = 0) ∧
    ((defer f a allocOk s).1 = DeferRes.oom ↔
      (f ≠ 0 ∧ fr = [] ∧ s.inited = true ∧ allocOk = false)) ∧
    ((defer f a allocOk s).1 ≠ DeferRes.ok → (defer f a allocOk s).2 = s) ∧
    ((defer f a allocOk s).1 = DeferRes.ok →
      ∃ p fr2, Inv (defer f a allocOk s).2 (q ++ [(p, f, a)]) fr2) := by
  by_cases hf : f = 0
  · rw [defer_null_eq f a allocOk s hf]
    refine ⟨by simp [hf], by simp [hf], fun _ => rfl, ?_⟩
    intro hcontra
    simp at hcontra
  · cases hfrc : fr with
    | cons p0 rest =>
      rw [hfrc] at h
      obtain ⟨hok, hinv, _⟩ := defer_pop h f a allocOk hf rfl
      rw [hok]
      refine ⟨by simp [hf], by simp [hfrc], by simp, ?_⟩
      intro _
      exact ⟨p0, rest, hinv⟩
    | nil =>
      rw [hfrc] at h
      cases hinit : s.inited with
      | true =>
        cases hAl : allocOk with
        | true =>
          obtain ⟨hok, hinv, _⟩ := defer_malloc h f a hf hinit
          rw [hok]
          refine ⟨by simp [hf], by simp, by simp, ?_⟩
          intro _
          exact ⟨NodePtr.heap s.heapNext, [], hinv⟩
        | false =>
          have hpool : s.pool = none := fchain_nil_ptr h.hfr
          rw [defer_oom_eq f a hf hpool hinit]
          refine ⟨by simp [hf], by simp [hf, hfrc, hinit], fun _ => rfl, ?_⟩
          intro hcontra
          simp at hcontra
      | false =>
        obtain ⟨hok, hinv, _, hq0⟩ := defer_carve h f a allocOk hf hinit
        subst hq0
        rw [hok]
        refine ⟨by simp [hf], by simp [hinit], by simp, ?_⟩
        intro _
        exact ⟨NodePtr.arena 0, arenaSeg 1, hinv⟩

/-- Witness for C3 at a concrete input: a NULL function is rejected with
InvalidArgument and the state is unchanged. -/
theorem C3_submit_witness :
    ((defer 0 5 true initState).1 = DeferRes.invalidArg ↔ (0 : Nat) = 0) ∧
    ((defer 0 5 true initState).1 = DeferRes.oom ↔
      ((0 : Nat) ≠ 0 ∧ ([] : List NodePtr) = [] ∧ initState.inited = true ∧ true = false)) ∧
    ((defer 0 5 true initState).1 ≠ DeferRes.ok → (defer 0 5 true initState).2 = initState) ∧
    ((defer 0 5 true initState).1 = DeferRes.ok →
      ∃ p fr2, Inv (defer 0 5 true initState).2 ([] ++ [(p, 0, 5)]) fr2) :=
  C3_submit_contract 0 5 true inv_init

theorem finishDefer_empty_last (f a : Nat) (p : NodePtr) (s : DeferState)
    (hEmp : s.first = none → s.last = LastPtr.headSlot) :
    (finishDefer f a p s).first = none → (finishDefer f a p s).last = LastPtr.headSlot := by
  intro hfn
  cases hlast : s.last with
  | headSlot =>
    have hsome : (finishDefer f a p s).first = some p := by
      simp [finishDefer, hlast]
    rw [hsome] at hfn
    cases hfn
  | nextOf pq =>
    have hkeep : (finishDefer f a p s).first = s.first := by
      simp [finishDefer, hlast]
    rw [hkeep] at hfn
    have hcontra := hEmp hfn
    rw [hlast] at hcontra
    cases hcontra

/-- C7: the queue invariant, if first is NULL then the tail-insertion point
is the address of first itself, holds initially and is preserved by every
defer call and by every iteration of the defer_perform loop. -/
theorem C7_empty_queue_last_invariant :
    (initState.first = none → initState.last = LastPtr.headSlot) ∧
    (∀ (f a : Nat) (ok : Bool) (s : DeferState),
      (s.first = none → s.last = LastPtr.headSlot) →
      ((defer f a ok s).2.first = none → (defer f a ok s).2.last = LastPtr.headSlot)) ∧
    (∀ (s s2 : DeferState) (t : Nat × Nat),
      (s.first = none → s.last = LastPtr.headSlot) →
      performStep s = some (t, s2) →
      (s2.first = none → s2.last = LastPtr.headSlot)) := by
  refine ⟨fun _ => rfl, ?_, ?_⟩
  · intro f a ok s hEmp
    by_cases hf : f = 0
    · rw [defer_null_eq f a ok s hf]
      exact hEmp
    · cases hpool : s.pool with
      | some p =>
        have hd : defer f a ok s =
            (DeferRes.ok, finishDefer f a p { s with pool := (s.mem p).next }) := by
          simp only [defer, hpool, if_neg hf]
        rw [hd]
        exact finishDefer_empty_last f a p _ hEmp
      | none =>
        cases hinit : s.inited with
        | true =>
          cases hAl : ok with
          | true =>
            have hd : defer f a true s =
                (DeferRes.ok, finishDefer f a (NodePtr.heap s.heapNext)
                  { s with heapNext := s.heapNext + 1, heapCount := s.heapCount + 1 }) := by
              simp only [defer, hpool, hinit, if_neg hf, if_true]
            rw [hd]
            exact finishDefer_empty_last f a _ _ hEmp
          | false =>
            rw [defer_oom_eq f a hf hpool hinit]
            exact hEmp
        | false =>
          have hd : defer f a ok s =
              (DeferRes.ok, finishDefer f a (NodePtr.arena 0)
                { s with inited := true, pool := some (NodePtr.arena 1),
                         mem := carveLoop s.mem 2 DEFER_QUEUE_BUFFER }) := by
            simp only [defer, hpool, hinit, if_neg hf, Bool.false_eq_true, if_false]
          rw [hd]
          exact finishDefer_empty_last f a _ _ hEmp
  · intro s s2 t hEmp hstep
    cases hfirst : s.first with
    | none =>
      simp [performStep, hfirst] at hstep
    | some tmp =>
      cases hnext : (s.mem tmp).next with
      | none =>
        cases hinr : inArenaRange tmp with
        | true =>
          simp [performStep, hfirst, hnext, hinr] at hstep
          obtain ⟨h1, hs2⟩ := hstep
          subst hs2
          intro _
          rfl
        | false =>
          simp [performStep, hfirst, hnext, hinr] at hstep
          obtain ⟨h1, hs2⟩ := hstep
          subst hs2
          intro _
          rfl
      | some y =>
        cases hinr : inArenaRange tmp with
        | true =>
          simp [performStep, hfirst, hnext, hinr] at hstep
          obtain ⟨h1, hs2⟩ := hstep
          subst hs2
          intro hfn
          simp at hfn
        | false =>
          simp [performStep, hfirst, hnext, hinr] at hstep
          obtain ⟨h1, hs2⟩ := hstep
          subst hs2
          intro hfn
          simp at hfn

/-- Witness for C7: the invariant holds of the pristine state, after one
successful defer from it, and after the following defer_perform iteration. -/
theorem C7_invariant_witness :
    (initState.first = none → initState.last = LastPtr.headSlot) ∧
    ((defer 1 0 true initState).2.first = none →
      (defer 1 0 true initState).2.last = LastPtr.headSlot) ∧
    (∃ t s2, performStep (defer 1 0 true initState).2 = some (t, s2) ∧
      (s2.first = none → s2.last = LastPtr.headSlot)) := by
  obtain ⟨hok, hinv1, _, _⟩ := defer_carve inv_init 1 0 true (by decide) rfl
  obtain ⟨s2, hstep2, hinv2, _, _⟩ := performStep_pop hinv1
  refine ⟨C7_empty_queue_last_invariant.1,
    C7_empty_queue_last_invariant.2.1 1 0 true initState (fun _ => rfl), ?_⟩
  exact ⟨(1, 0), s2, hstep2,
    C7_empty_queue_last_invariant.2.2 _ _ _ (by decide) hstep2⟩

/-- C6: submitting and draining tasks one at a time from the pristine
state, any number of times (also more than the arena capacity), leaves,
after every round, an empty queue, a free list of exactly
DEFER_QUEUE_BUFFER = 1024 nodes, no live heap node, and in fact no heap
allocation ever performed. -/
theorem C6_arena_recycling (ts : List (Nat × Nat)) (hts : ∀ x ∈ ts, x.1 ≠ 0)
    (n : Nat) (hn1 : 1 ≤ n) (hn2 : n ≤ ts.length) :
    (submitDrainAll (ts.take n)).first = none ∧
    (submitDrainAll (ts.take n)).heapCount = 0 ∧
    (submitDrainAll (ts.take n)).heapNext = 0 ∧
    ∃ fr, FChain (submitDrainAll (ts.take n)).mem (submitDrainAll (ts.take n)).pool fr ∧
      fr.length = DEFER_QUEUE_BUFFER := by
  cases ts with
  | nil =>
    simp at hn2
    omega
  | cons t ts2 =>
    cases n with
    | zero => omega
    | succ m =>
      have htake : (t :: ts2).take (m + 1) = t :: ts2.take m := List.take_succ_cons
      rw [htake]
      have hfold : submitDrainAll (t :: ts2.take m) =
          (ts2.take m).foldl submitDrain (submitDrain initState t) := rfl
      obtain ⟨fr1, hinv1, hlen1, hhn1⟩ :=
        submitDrain_base t.1 t.2 (hts t (List.mem_cons_self _ _))
      obtain ⟨fr2, hinv2, hlen2, hhn2⟩ :=
        submitDrain_fold (ts2.take m)
          (fun x hx => hts x (List.mem_cons_of_mem _ (List.take_subset _ _ hx)))
          hinv1 hlen1 hhn1
      rw [hfold]
      refine ⟨chain_nil_ptr hinv2.hq, ?_, hhn2, fr2, hinv2.hfr, hlen2⟩
      rw [← hinv2.hheap]
      rfl

/-- Witness for C6: one round with a single task already leaves the free
list at full capacity. -/
theorem C6_arena_recycling_witness :
    (∀ x ∈ [((1 : Nat), (0 : Nat))], x.1 ≠ 0) ∧ (1 : Nat) ≤ 1 ∧ (1 : Nat) ≤ 1 ∧
    ((submitDrainAll ([(1, 0)].take 1)).first = none ∧
      (submitDrainAll ([(1, 0)].take 1)).heapCount = 0 ∧
      (submitDrainAll ([(1, 0)].take 1)).heapNext = 0 ∧
      ∃ fr, FChain (submitDrainAll ([(1, 0)].take 1)).mem
          (submitDrainAll ([(1, 0)].take 1)).pool fr ∧
        fr.length = DEFER_QUEUE_BUFFER) :=
  ⟨by decide, by decide, by decide,
    C6_arena_recycling [(1, 0)] (by decide) 1 (by decide) (by decide)⟩

/-- C4: for every N at least 1, defer_pool_start either reports a pool with
exactly N threads spawned in order and the active flag set, or (when the
pool was allocated) returns NULL having cleared the flag after the first
failing spawn, with no retry: every index below the reached count spawned
successfully and the spawn at the reached count failed; None without a pool
object happens only when the pool allocation itself failed. -/
theorem C4_pool_start_atomicity (spawnOk : Nat → Bool) (allocOk : Bool) (N : Nat)
    (hN : 1 ≤ N) :
    (defer_pool_start spawnOk allocOk N = none → allocOk = false) ∧
    (∀ r, defer_pool_start spawnOk allocOk N = some r →
      (r.returned = true →
        r.pool.count = N ∧ r.pool.flag = 1 ∧ r.pool.threads = List.range N) ∧
      (r.returned = false →
        r.pool.flag = 0 ∧ r.pool.count < N ∧ spawnOk r.pool.count = false ∧
          ∀ i < r.pool.count, spawnOk i = true)) := by
  have hN0 : ¬(N = 0) := by omega
  cases hAl : allocOk with
  | false =>
    refine ⟨fun _ => rfl, ?_⟩
    intro r hr
    rw [defer_pool_start, if_neg hN0] at hr
    simp at hr
  | true =>
    refine ⟨?_, ?_⟩
    · intro hnone
      rw [defer_pool_start, if_neg hN0] at hnone
      simp at hnone
    · intro r hr
      rw [defer_pool_start, if_neg hN0] at hr
      simp at hr
      obtain ⟨h1, h2, h3, h4, h5, h6⟩ :=
        poolInitLoop_spec spawnOk N { flag := 1, count := 0, threads := [] } rfl
      have hc0 : ({ flag := 1, count := 0, threads := [] } : Pool).count = 0 := rfl
      rw [hc0] at h3 h4 h5 h6
      by_cases hcnt : (poolInitLoop spawnOk N { flag := 1, count := 0, threads := [] }).count = N
      · have hini : defer_pool_init spawnOk N =
            { pool := poolInitLoop spawnOk N { flag := 1, count := 0, threads := [] },
              returned := true, throttle := some (8388608 * N) } := by
          simp [defer_pool_init, hcnt]
        rw [hini] at hr
        subst hr
        refine ⟨fun _ => ⟨hcnt, h1, ?_⟩, ?_⟩
        · rw [h2, hcnt]
        · intro hcontra
          cases hcontra
      · have hini : defer_pool_init spawnOk N =
            { pool := { poolInitLoop spawnOk N { flag := 1, count := 0, threads := [] } with
                          flag := 0 },
              returned := false, throttle := none } := by
          simp [defer_pool_init, hcnt]
        rw [hini] at hr
        subst hr
        refine ⟨?_, fun _ => ⟨rfl, ?_, ?_, ?_⟩⟩
        · intro hcontra
          cases hcontra
        · show (poolInitLoop spawnOk N { flag := 1, count := 0, threads := [] }).count < N
          omega
        · show spawnOk (poolInitLoop spawnOk N { flag := 1, count := 0, threads := [] }).count
            = false
          exact h6 (by omega)
        · intro i hi
          exact h5 i (by omega) hi

/-- Witness for C4: requesting two threads with the second spawn failing
leaves a stopped single-thread pool and no handle. -/
theorem C4_pool_start_witness :
    (1 : Nat) ≤ 2 ∧
    ((defer_pool_start (fun i => decide (i = 0)) true 2 = none → true = false) ∧
      (∀ r, defer_pool_start (fun i => decide (i = 0)) true 2 = some r →
        (r.returned = true →
          r.pool.count = 2 ∧ r.pool.flag = 1 ∧ r.pool.threads = List.range 2) ∧
        (r.returned = false →
          r.pool.flag = 0 ∧ r.pool.count < 2 ∧ decide (r.pool.count = 0) = false ∧
            ∀ i < r.pool.count, decide (i = 0) = true))) :=
  ⟨by decide, C4_pool_start_atomicity (fun i => decide (i = 0)) true 2 (by decide)⟩

/-- C10: defer_pool_start with a zero thread count returns NULL before any
allocation or spawn, for every spawn and allocation oracle. -/
theorem C10_pool_start_zero (spawnOk : Nat → Bool) (allocOk : Bool) :
    defer_pool_start spawnOk allocOk 0 = none := rfl

/-- C5 evaluation at the failing input: defer_perform_in_fork with one
process and a zero thread count makes defer_pool_start return NULL, and the
parent path hands that NULL to defer_pool_wait, which dereferences it
(pool->count): the model crashes instead of returning a negative value. -/
theorem C5_pool_start_failure_crash :
    (defer_perform_in_fork envAllOk 1 0 initF).isCrash = true ∧
    (defer_perform_in_fork envAllOk 1 0 initF).code = none := by
  decide

/-- C8 counterexample: when installing the SIGINT handler fails,
defer_perform_in_fork neither exits nor crashes, and returns 0: the process
is not terminated and success is reported. -/
theorem C8_sigfail_counterexample :
    (defer_perform_in_fork envNoINT 4 2 initF).code = some 0 ∧
    (defer_perform_in_fork envNoINT 4 2 initF).isExited = false ∧
    (defer_perform_in_fork envNoINT 4 2 initF).isCrash = false := by
  decide

/-- C8 amended: if installing either termination-signal handler fails,
defer_perform_in_fork prints its diagnostic and goes straight to the finish
label: no fork, no pool, no perform happens, the handlers are restored
(results unchecked) and the call returns 0; the process does not
terminate. -/
theorem C8_sigfail_amended (env : ForkEnv) (pct tc : Nat) (s0 : FState)
    (h : env.sigintOk = false ∨ env.sigtermOk = false) :
    ∃ r, defer_perform_in_fork env pct tc s0 = FOutcome.ret 0 r ∧
      r.forkedPool = s0.forkedPool ∧
      r.events = s0.events ++
        ((if env.sigintOk then [FEvent.installedINT] else []) ++
          [FEvent.restoredINT, FEvent.restoredTERM]) := by
  cases hint : env.sigintOk with
  | false =>
    refine ⟨{ s0 with events := s0.events ++ [FEvent.restoredINT, FEvent.restoredTERM] },
      ?_, rfl, ?_⟩
    · simp [defer_perform_in_fork, hint, finishF]
    · simp
  | true =>
    have hterm : env.sigtermOk = false := by
      rcases h with h1 | h2
      · rw [hint] at h1
        cases h1
      · exact h2
    refine ⟨{ s0 with events :=
        (s0.events ++ [FEvent.installedINT]) ++ [FEvent.restoredINT, FEvent.restoredTERM] },
      ?_, rfl, ?_⟩
    · simp [defer_perform_in_fork, hint, hterm, finishF, addEv]
    · simp [List.append_assoc]

/-- Witness for C8 amended: concrete run with a failing SIGINT install. -/
theorem C8_sigfail_witness :
    (envNoINT.sigintOk = false ∨ envNoINT.sigtermOk = false) ∧
    ∃ r, defer_perform_in_fork envNoINT 4 2 initF = FOutcome.ret 0 r ∧
      r.forkedPool = initF.forkedPool ∧
      r.events = initF.events ++
        ((if envNoINT.sigintOk then [FEvent.installedINT] else []) ++
          [FEvent.restoredINT, FEvent.restoredTERM]) :=
  ⟨Or.inl rfl, C8_sigfail_amended envNoINT 4 2 initF (Or.inl rfl)⟩

/-- C9 counterexample: a forked child (all other OS interactions
succeeding) returns 1 with the process-wide forked_pool still set and no
clearing event recorded: the child never clears the local-pool reference
before its code path completes. -/
theorem C9_child_counterexample :
    (defer_perform_in_fork envChild 2 1 initF).code = some 1 ∧
    ((defer_perform_in_fork envChild 2 1 initF).state.forkedPool).isSome = true ∧
    FEvent.clearedPool ∉ (defer_perform_in_fork envChild 2 1 initF).state.events := by
  decide

/-- C9 amended: under an environment where every OS interaction succeeds
and at least one worker thread is requested, the parent sets forked_pool
just before waiting on its pool and clears it right after the wait returns,
before its defer_perform and the cleanup path, finally returning 0; a
forked child sets forked_pool before waiting but never clears it: it
returns 1 with forked_pool still referencing its pool. -/
theorem C9_forked_pool_lifecycle (env : ForkEnv) (pct tc : Nat)
    (hok : env.sigintOk = true ∧ env.sigtermOk = true ∧ env.sigchldOk = true ∧
      env.callocOk = true ∧ env.poolAllocOk = true ∧ ∀ i, env.spawnOk i = true)
    (htc : 1 ≤ tc) :
    ((∀ k, ∃ n, env.forkRes k = ForkR.pid n) →
      ∃ r, defer_perform_in_fork env pct tc initF = FOutcome.ret 0 r ∧
        r.forkedPool = none ∧
        ∃ l1 l2, r.events = l1 ++
          ([FEvent.setPool true, FEvent.waitedPool, FEvent.clearedPool, FEvent.performed] ++
            l2)) ∧
    (env.forkRes 0 = ForkR.child → 2 ≤ pct →
      ∃ r, defer_perform_in_fork env pct tc initF = FOutcome.ret 1 r ∧
        r.forkedPool ≠ none ∧
        (∃ l1, r.events = l1 ++
          [FEvent.setPool true, FEvent.waitedPool, FEvent.performed, FEvent.performed]) ∧
        FEvent.clearedPool ∉ r.events) := by
  obtain ⟨hint, hterm, hchld, hcal, hpa, hsp⟩ := hok
  constructor
  · intro hpid
    by_cases hpc : (if pct = 0 then 1 else pct) - 1 = 0
    · have hred : defer_perform_in_fork env pct tc initF =
          afterLoop env tc
            { forkedPool := none,
              events := [FEvent.installedINT, FEvent.installedTERM, FEvent.installedCHLD] }
            none ((if pct = 0 then 1 else pct) - 1) := by
        simp [defer_perform_in_fork, hint, hterm, hchld, addEv, initF, hpc]
      obtain ⟨r, hr, hfp, l2, hev⟩ := afterLoop_happy env tc hsp hpa htc
        { forkedPool := none,
          events := [FEvent.installedINT, FEvent.installedTERM, FEvent.installedCHLD] }
        none ((if pct = 0 then 1 else pct) - 1)
      refine ⟨r, ?_, hfp,
        [FEvent.installedINT, FEvent.installedTERM, FEvent.installedCHLD], l2, ?_⟩
      · rw [hred, hr]
      · rw [hev]
    · obtain ⟨s1, pids, hfl, hfp1, evs, hevs⟩ := forkLoop_all_pids env tc hpid
        ((if pct = 0 then 1 else pct) - 1) 0
        { forkedPool := none,
          events := [FEvent.installedINT, FEvent.installedTERM, FEvent.installedCHLD] } []
      have hred : defer_perform_in_fork env pct tc initF =
          afterLoop env tc s1 (some pids) ((if pct = 0 then 1 else pct) - 1) := by
        simp [defer_perform_in_fork, hint, hterm, hchld, hcal, addEv, initF, hpc, hfl]
      obtain ⟨r, hr, hfp, l2, hev⟩ :=
        afterLoop_happy env tc hsp hpa htc s1 (some pids) ((if pct = 0 then 1 else pct) - 1)
      refine ⟨r, ?_, hfp, s1.events, l2, ?_⟩
      · rw [hred, hr]
      · rw [hev]
  · intro hchild hpct
    have hpctne : ¬(pct = 0) := by omega
    have hpc : ¬((if pct = 0 then 1 else pct) - 1 = 0) := by
      rw [if_neg hpctne]
      omega
    have hfl : forkLoop env tc ((if pct = 0 then 1 else pct) - 1) 0
        { forkedPool := none,
          events := [FEvent.installedINT, FEvent.installedTERM, FEvent.installedCHLD] } []
        = Sum.inl (childPath env tc (addEv
            { forkedPool := none,
              events := [FEvent.installedINT, FEvent.installedTERM, FEvent.installedCHLD] }
            (FEvent.forkedChild 0))) := by
      cases hpcv : (if pct = 0 then 1 else pct) - 1 with
      | zero => exact absurd hpcv hpc
      | succ m => simp only [forkLoop, hchild]
    have hred : defer_perform_in_fork env pct tc initF
        = childPath env tc (addEv
            { forkedPool := none,
              events := [FEvent.installedINT, FEvent.installedTERM, FEvent.installedCHLD] }
            (FEvent.forkedChild 0)) := by
      simp [defer_perform_in_fork, hint, hterm, hchld, hcal, addEv, initF, hpc, hfl]
    rw [hred, childPath_happy env tc hsp hpa htc]
    refine ⟨_, rfl, ?_, ⟨_, rfl⟩, ?_⟩
    · simp
    · simp [addEv]

/-- Witness for C9 amended: the child clause at a concrete all-success
environment with two processes and one thread. -/
theorem C9_lifecycle_witness :
    (envChild.sigintOk = true ∧ envChild.sigtermOk = true ∧ envChild.sigchldOk = true ∧
      envChild.callocOk = true ∧ envChild.poolAllocOk = true ∧
      ∀ i, envChild.spawnOk i = true) ∧
    (1 : Nat) ≤ 1 ∧
    (∃ r, defer_perform_in_fork envChild 2 1 initF = FOutcome.ret 1 r ∧
      r.forkedPool ≠ none ∧
      (∃ l1, r.events = l1 ++
        [FEvent.setPool true, FEvent.waitedPool, FEvent.performed, FEvent.performed]) ∧
      FEvent.clearedPool ∉ r.events) := by
  have hok : envChild.sigintOk = true ∧ envChild.sigtermOk = true ∧
      envChild.sigchldOk = true ∧ envChild.callocOk = true ∧ envChild.poolAllocOk = true ∧
      ∀ i, envChild.spawnOk i = true :=
    ⟨rfl, rfl, rfl, rfl, rfl, fun i => rfl⟩
  exact ⟨hok, by decide,
    (C9_forked_pool_lifecycle envChild 2 1 hok (by decide)).2 rfl (by decide)⟩

end FacilDefer
